import Mathlib

/-!
Shallow embedding of the klaudio controller (github.com/ljtfreitas/klaudio).

The Go sources under `src/` are translated into executable Lean definitions:

* the expression engine (`internal/expression`, `internal/expression/expr`):
  token search, parsing into Simple/Expr/Composite expressions, and the
  regex-based dependency extraction;
* the resource-properties machinery (`internal/resources`): property trees,
  dependency collection, evaluation, and `ResourceGroup.Graph`;
* the `ResourceGroupDeployment` reconciler driver loop and its phase
  aggregation (`internal/controller/resourcegroupdeployment_controller.go`);
* the `ResourceGroup` fan-out reconciler
  (`internal/controller/resourcegroup_controller.go`).

Machine strings are Lean `String`s; Go maps keyed by strings are association
lists; Go's `k8s.io/.../sets.String` (a set whose `List()` returns the sorted
element list) is modelled by `stringSet` below.  Fallible Go functions
returning `(T, error)` become `Except` values.  Object-store reads and writes
performed by the reconcilers are modelled against an explicit store value; the
store operations themselves are assumed to succeed (transient store errors are
outside the scope of the claims considered here).
-/

namespace Klaudio

/-- The `{` character, written via its code point. -/
def lbrace : Char := Char.ofNat 123

/-- The `}` character, written via its code point. -/
def rbrace : Char := Char.ofNat 125

/-- The `.` character. -/
def dotChar : Char := '.'

/-! ### `sets.String`

`k8s.io/apimachinery/pkg/util/sets.String` is a string set; its `List()`
method returns the elements sorted in increasing order.  We model a set by
its sorted, duplicate-free element list, built by sorted insertion. -/

/-- Lexicographic comparison of character lists (Go `<` on strings compares
bytes; for the ASCII names appearing here byte order and code-point order
coincide). -/
def charListLt : List Char → List Char → Bool
  | [], [] => false
  | [], _ :: _ => true
  | _ :: _, [] => false
  | a :: as, b :: bs => if a < b then true else if b < a then false else charListLt as bs

/-- Go string comparison `a < b`. -/
def strLt (a b : String) : Bool := charListLt a.data b.data

theorem charListLt_irrefl (l : List Char) : charListLt l l = false := by
  induction l with
  | nil => rfl
  | cons a as ih => simp [charListLt, lt_irrefl, ih]

theorem charListLt_trans :
    ∀ l1 l2 l3 : List Char, charListLt l1 l2 = true → charListLt l2 l3 = true →
      charListLt l1 l3 = true := by
  intro l1
  induction l1 with
  | nil =>
    intro l2 l3 h12 h23
    cases l2 with
    | nil => exact absurd h12 (by simp [charListLt])
    | cons b bs =>
      cases l3 with
      | nil => exact absurd h23 (by simp [charListLt])
      | cons c cs => simp [charListLt]
  | cons a as ih =>
    intro l2 l3 h12 h23
    cases l2 with
    | nil => exact absurd h12 (by simp [charListLt])
    | cons b bs =>
      cases l3 with
      | nil => exact absurd h23 (by simp [charListLt])
      | cons c cs =>
        simp only [charListLt] at h12 h23 ⊢
        by_cases hab : a < b
        · by_cases hbc : b < c
          · simp [lt_trans hab hbc]
          · rw [if_neg hbc] at h23
            by_cases hcb : c < b
            · exact absurd h23 (by simp [hcb])
            · have hbc' : b = c := by
                rcases lt_trichotomy b c with h | h | h
                · exact absurd h hbc
                · exact h
                · exact absurd h hcb
              simp [hbc' ▸ hab]
        · rw [if_neg hab] at h12
          by_cases hba : b < a
          · exact absurd h12 (by simp [hba])
          · have hab' : a = b := by
              rcases lt_trichotomy a b with h | h | h
              · exact absurd h hab
              · exact h
              · exact absurd h hba
            subst hab'
            simp only [if_neg (lt_irrefl a)] at h12
            by_cases hac : a < c
            · simp [hac]
            · rw [if_neg hac] at h23 ⊢
              by_cases hca : c < a
              · exact absurd h23 (by simp [hca])
              · rw [if_neg hca] at h23 ⊢
                exact ih bs cs h12 h23

theorem charListLt_eq_of_not_lt :
    ∀ l1 l2 : List Char, charListLt l1 l2 = false → charListLt l2 l1 = false →
      l1 = l2 := by
  intro l1
  induction l1 with
  | nil =>
    intro l2 h12 _
    cases l2 with
    | nil => rfl
    | cons b bs => exact absurd h12 (by simp [charListLt])
  | cons a as ih =>
    intro l2 h12 h21
    cases l2 with
    | nil => exact absurd h21 (by simp [charListLt])
    | cons b bs =>
      simp only [charListLt] at h12 h21
      by_cases hab : a < b
      · exact absurd h12 (by simp [hab])
      · rw [if_neg hab] at h12
        by_cases hba : b < a
        · exact absurd h21 (by simp [hba])
        · rw [if_neg hba] at h21
          have hab' : a = b := by
            rcases lt_trichotomy a b with h | h | h
            · exact absurd h hab
            · exact h
            · exact absurd h hba
          subst hab'
          simp only [if_neg (lt_irrefl a)] at h12 h21
          exact congrArg (a :: ·) (ih bs h12 h21)

theorem charListLt_asymm (l1 l2 : List Char) (h : charListLt l1 l2 = true) :
    charListLt l2 l1 = false := by
  by_contra hc
  have h21 : charListLt l2 l1 = true := by
    cases hval : charListLt l2 l1
    · exact absurd hval hc
    · rfl
  have := charListLt_trans l1 l2 l1 h h21
  rw [charListLt_irrefl] at this
  exact Bool.noConfusion this

theorem strLt_irrefl (a : String) : strLt a a = false := charListLt_irrefl a.data

theorem strLt_trans (a b c : String) (h1 : strLt a b = true) (h2 : strLt b c = true) :
    strLt a c = true := charListLt_trans a.data b.data c.data h1 h2

theorem strLt_asymm (a b : String) (h : strLt a b = true) : strLt b a = false :=
  charListLt_asymm a.data b.data h

theorem strLt_eq_of_not_lt (a b : String) (h1 : strLt a b = false)
    (h2 : strLt b a = false) : a = b := by
  have := charListLt_eq_of_not_lt a.data b.data h1 h2
  cases a
  cases b
  exact congrArg String.mk this

/-- Insert a string into a sorted duplicate-free list, keeping it sorted and
duplicate-free. -/
def sortedInsert (x : String) : List String → List String
  | [] => [x]
  | y :: ys =>
    if x = y then y :: ys
    else if strLt x y then x :: y :: ys
    else y :: sortedInsert x ys

/-- The sorted element list of the string set built from `l`
(`sets.NewString(l...).List()`). -/
def stringSet (l : List String) : List String :=
  l.foldl (fun acc x => sortedInsert x acc) []

/-- Sortedness with respect to `strLt`. -/
def SortedS (l : List String) : Prop := l.Pairwise (fun a b => strLt a b = true)

theorem mem_sortedInsert (x y : String) (l : List String) :
    y ∈ sortedInsert x l ↔ y = x ∨ y ∈ l := by
  induction l with
  | nil => simp [sortedInsert]
  | cons z zs ih =>
    simp only [sortedInsert]
    split
    · next hxz =>
      subst hxz
      simp only [List.mem_cons]
      tauto
    · split
      · simp only [List.mem_cons]
      · simp only [List.mem_cons, ih]
        tauto

theorem sorted_sortedInsert (x : String) (l : List String)
    (h : SortedS l) : SortedS (sortedInsert x l) := by
  induction l with
  | nil => simp [sortedInsert, SortedS]
  | cons z zs ih =>
    have hz := (List.pairwise_cons.mp h).1
    have hzs := (List.pairwise_cons.mp h).2
    simp only [sortedInsert]
    split
    · next hxz => exact hxz ▸ h
    · split
      · next hxz hlt =>
        refine List.pairwise_cons.mpr ⟨?_, h⟩
        intro b hb
        rcases List.mem_cons.mp hb with hb | hb
        · exact hb ▸ hlt
        · exact strLt_trans x z b hlt (hz b hb)
      · next hxz hlt =>
        have hzx : strLt z x = true := by
          cases hval : strLt z x
          · exact absurd (strLt_eq_of_not_lt x z (by simpa using hlt) hval) hxz
          · rfl
        refine List.pairwise_cons.mpr ⟨?_, ih hzs⟩
        intro b hb
        rcases (mem_sortedInsert x b zs).mp hb with hb | hb
        · exact hb ▸ hzx
        · exact hz b hb

theorem mem_foldl_sortedInsert (l : List String) (acc : List String) (y : String) :
    y ∈ l.foldl (fun acc x => sortedInsert x acc) acc ↔ y ∈ acc ∨ y ∈ l := by
  induction l generalizing acc with
  | nil => simp
  | cons z zs ih =>
    simp only [List.foldl_cons, ih, mem_sortedInsert, List.mem_cons]
    tauto

theorem mem_stringSet (l : List String) (y : String) :
    y ∈ stringSet l ↔ y ∈ l := by
  simpa [stringSet] using mem_foldl_sortedInsert l [] y

theorem sorted_foldl_sortedInsert (l : List String) (acc : List String)
    (h : SortedS acc) :
    SortedS (l.foldl (fun acc x => sortedInsert x acc) acc) := by
  induction l generalizing acc with
  | nil => simpa using h
  | cons z zs ih => exact ih _ (sorted_sortedInsert z acc h)

theorem sorted_stringSet (l : List String) : SortedS (stringSet l) :=
  sorted_foldl_sortedInsert l [] (by simp [SortedS])

theorem nodup_stringSet (l : List String) : (stringSet l).Nodup := by
  refine (sorted_stringSet l).imp ?_
  intro a b hab
  intro hEq
  rw [hEq, strLt_irrefl] at hab
  exact Bool.noConfusion hab

theorem sortedS_eq_of_mem_iff :
    ∀ l1 l2 : List String, SortedS l1 → SortedS l2 →
      (∀ y, y ∈ l1 ↔ y ∈ l2) → l1 = l2 := by
  intro l1
  induction l1 with
  | nil =>
    intro l2 _ _ hmem
    cases l2 with
    | nil => rfl
    | cons b bs => exact absurd ((hmem b).mpr (by simp)) (by simp)
  | cons a as ih =>
    intro l2 h1 h2 hmem
    cases l2 with
    | nil => exact absurd ((hmem a).mp (by simp)) (by simp)
    | cons b bs =>
      have ha1 := (List.pairwise_cons.mp h1).1
      have has := (List.pairwise_cons.mp h1).2
      have hb1 := (List.pairwise_cons.mp h2).1
      have hbs := (List.pairwise_cons.mp h2).2
      have hab : a = b := by
        rcases List.mem_cons.mp ((hmem a).mp (by simp)) with h | h
        · exact h
        · rcases List.mem_cons.mp ((hmem b).mpr (by simp)) with h' | h'
          · exact h'.symm
          · have hba := hb1 a h
            have hab := ha1 b h'
            rw [strLt_asymm a b hab] at hba
            exact Bool.noConfusion hba
      subst hab
      have htails : ∀ y, y ∈ as ↔ y ∈ bs := by
        intro y
        constructor
        · intro hy
          rcases List.mem_cons.mp ((hmem y).mp (List.mem_cons_of_mem a hy)) with h | h
          · exact absurd (h ▸ ha1 y hy) (by simp [strLt_irrefl])
          · exact h
        · intro hy
          rcases List.mem_cons.mp ((hmem y).mpr (List.mem_cons_of_mem a hy)) with h | h
          · exact absurd (h ▸ hb1 y hy) (by simp [strLt_irrefl])
          · exact h
      exact congrArg (a :: ·) (ih bs has hbs htails)

theorem stringSet_eq_of_mem_iff (l l' : List String)
    (h : ∀ y, y ∈ l ↔ y ∈ l') : stringSet l = stringSet l' := by
  refine sortedS_eq_of_mem_iff _ _ (sorted_stringSet l) (sorted_stringSet l') ?_
  intro y
  rw [mem_stringSet, mem_stringSet]
  exact h y

/-! ### Association-list stores -/

/-- Look a key up in an association list (a Go map read / object-store get). -/
def lookupA {α : Type} : List (String × α) → String → Option α
  | [], _ => none
  | (k', v') :: rest, k => if k' = k then some v' else lookupA rest k

/-- Create-or-update an entry of an association list keyed by strings
(models an object-store write, or assignment to a Go map). -/
def upsert {α : Type} (store : List (String × α)) (k : String) (v : α) :
    List (String × α) :=
  match store with
  | [] => [(k, v)]
  | (k', v') :: rest => if k' = k then (k, v) :: rest else (k', v') :: upsert rest k v

theorem lookupA_upsert_self {α : Type} (store : List (String × α)) (k : String) (v : α) :
    lookupA (upsert store k v) k = some v := by
  induction store with
  | nil => simp [upsert, lookupA]
  | cons p rest ih =>
    obtain ⟨k', v'⟩ := p
    simp only [upsert]
    split
    · simp [lookupA]
    · next h => simp only [lookupA, if_neg h, ih]

theorem lookupA_upsert_other {α : Type} (store : List (String × α)) (k k' : String) (v : α)
    (h : k ≠ k') : lookupA (upsert store k v) k' = lookupA store k' := by
  induction store with
  | nil => simp [upsert, lookupA, h]
  | cons p rest ih =>
    obtain ⟨k0, v0⟩ := p
    simp only [upsert]
    split
    · next h0 =>
      subst h0
      simp only [lookupA, if_neg h]
    · simp only [lookupA, ih]

/-! ### Expression engine

Models `src/internal/expression` (the expr-backed version) and
`src/internal/expression/expr/expr.go`.  Go regular expressions are modelled
by explicit left-to-right scanners with the same leftmost-match semantics:
`[^X]+` runs cannot cross their excluded character, so a greedy run followed
by a required character matches exactly when the maximal run is nonempty and
the character right after it is the required one. -/

/-- Models `exprExpressionRe = \$\{([^}]+)\}` under `FindAllStringSubmatch`:
scan left to right; at `${` the body is the maximal nonempty run of
non-`}` characters which must be followed by `}`; on a match, continue after
the closing brace (matches do not overlap); otherwise advance one character.
Recursion is bounded by a fuel counter so that the definition is structural
(and hence kernel-evaluable); every step consumes at least one character, so
any fuel of at least the list length computes the full scan. -/
def searchExpressionsAux : Nat → List Char → List (List Char)
  | 0, _ => []
  | _ + 1, [] => []
  | fuel + 1, c :: cs =>
    if c = '$' then
      match cs with
      | [] => []
      | c2 :: rest =>
        if c2 = lbrace then
          let run := rest.takeWhile (fun x => x ≠ rbrace)
          if run.isEmpty then searchExpressionsAux fuel cs
          else
            match rest.dropWhile (fun x => x ≠ rbrace) with
            | _ :: after => run :: searchExpressionsAux fuel after
            | [] => searchExpressionsAux fuel cs
        else searchExpressionsAux fuel cs
    else searchExpressionsAux fuel cs

/-- `expr.SearchExpressions` (expr.go lines 17-26): all `${...}` bodies. -/
def searchExpressions (s : String) : List String :=
  (searchExpressionsAux s.data.length s.data).map String.mk

/-- The literal prefix of `resourcesExpressionRe = (resources\.[^.]+)\.`. -/
def resourcesRootPrefix : List Char := "resources.".data

/-- The literal prefix of `referencesExpressionRe = (refs\.[^.]+)\.`. -/
def refsRootPrefix : List Char := "refs.".data

/-- Try to match `PFX[^.]+\.` at the start of `l`; on success, return the
capture group `PFX[^.]+` (the maximal nonempty run of non-dot characters,
which must be followed by a dot). -/
def matchRootAt (pfx : List Char) (l : List Char) : Option (List Char) :=
  if pfx.isPrefixOf l then
    let rest := l.drop pfx.length
    let run := rest.takeWhile (fun c => c ≠ dotChar)
    if run.isEmpty then none
    else
      match rest.dropWhile (fun c => c ≠ dotChar) with
      | _ :: _ => some (pfx ++ run)
      | [] => none
  else none

/-- Leftmost match of `(PFX[^.]+)\.` in `l`
(`regexp.FindStringSubmatch`, capture group 1). -/
def findRoot (pfx : List Char) : List Char → Option (List Char)
  | [] => none
  | c :: cs =>
    match matchRootAt pfx (c :: cs) with
    | some g => some g
    | none => findRoot pfx cs

/-- `ExprExpression.Dependencies` (expr.go lines 46-60): an empty slice,
extended with the first `(resources\.[^.]+)\.` submatch if any, then with the
first `(refs\.[^.]+)\.` submatch if any. -/
def exprDependencies (source : String) : List String :=
  let withResources :=
    match findRoot resourcesRootPrefix source.data with
    | some g => [String.mk g]
    | none => []
  match findRoot refsRootPrefix source.data with
  | some g => withResources ++ [String.mk g]
  | none => withResources

/-- `expression.StartToken` = the two-character string dollar + brace. -/
def startToken : String := "$\x7b"

/-- `expression.EndToken`. -/
def endToken : String := "\x7d"

/-- JSON values as decoded by `encoding/json` into `any` (objects become
`map[string]any`, arrays `[]any`, numbers `float64`; numbers are modelled by
integers — the claims touch no numeric arithmetic). -/
inductive Json where
  | null
  | bool (b : Bool)
  | num (n : Int)
  | str (s : String)
  | arr (elems : List Json)
  | obj (fields : List (String × Json))

/-- `any` values produced by evaluation. -/
inductive Value where
  | null
  | bool (b : Bool)
  | num (n : Int)
  | str (s : String)
  | arr (elems : List Value)
  | obj (fields : List (String × Value))

/-- Go `fmt.Sprintf("%s", v)` for a decoded JSON value that is not a string
(`Parse` falls back to this formatting for non-string scalars; the array and
object cases are unreachable from `readProperty`, which routes them to the
array/object property readers first). -/
def goFormat : Json → String
  | .null => "%!s(<nil>)"
  | .bool b => "%!s(bool=" ++ (if b then "true" else "false") ++ ")"
  | .num n => "%!s(float64=" ++ toString n ++ ")"
  | .str s => s
  | .arr _ => "[unreachable array value]"
  | .obj _ => "[unreachable object value]"

/-- Parsed property expressions: `SimpleExpression` (literal),
`ExprExpression` (a single `${...}` token, holding the inner source), and
`CompositeExpression` (holding the original string and the token bodies). -/
inductive Expression where
  | simple (source : String)
  | single (source : String)
  | composite (source : String) (subs : List String)

/-- `expr.NewExprExpression` (expr.go lines 30-40): take the first `${...}`
match; error when there is none. -/
def newExprExpression (source : String) : Except String Expression :=
  match searchExpressions source with
  | e :: _ => .ok (.single e)
  | [] => .error ("invalid Expr expression: " ++ source)

/-- `expression.Parse` (expression.go lines 216-234): non-strings become
`SimpleExpression(fmt.Sprintf("%s", v))`; a string with no `${...}` token is
a `SimpleExpression`; a string with exactly one token that starts with `${`
is parsed by `NewExprExpression`; anything else is a `CompositeExpression`
over the matched token bodies. -/
def Parse (value : Json) : Except String Expression :=
  match value with
  | .str s =>
    let exprs := searchExpressions s
    if exprs.isEmpty then .ok (.simple s)
    else if exprs.length = 1 && startToken.data.isPrefixOf s.data then
      newExprExpression s
    else .ok (.composite s exprs)
  | v => .ok (.simple (goFormat v))

/-- `Expression.Dependencies`: a `SimpleExpression` has none
(expression.go lines 250-252); an `ExprExpression` extracts roots with the
two regexes (expr.go lines 46-60); a `CompositeExpression` pre-allocates
`make([]string, len(e.expressions))` — `len(subs)` empty strings — and then
appends each sub-expression's dependencies (expression.go lines 285-291). -/
def Expression.Dependencies : Expression → List String
  | .simple _ => []
  | .single e => exprDependencies e
  | .composite _ subs => List.replicate subs.length "" ++ subs.flatMap exprDependencies

/-- Go `fmt.Sprintf("%s", r)` of an evaluated value, used when splicing a
sub-expression result into a composite string. -/
def goFormatValue : Value → String
  | .null => "%!s(<nil>)"
  | .bool b => "%!s(bool=" ++ (if b then "true" else "false") ++ ")"
  | .num n => "%!s(int=" ++ toString n ++ ")"
  | .str s => s
  | .arr _ => "[array value]"
  | .obj _ => "[object value]"

/-- `Expression.Evaluate`.  Evaluation of a single `${...}` body is performed
by the external `expr-lang/expr` interpreter, which is not part of this
repository; it is abstracted as the parameter `ev`, applied to the expression
source and the evaluation scope.  A `SimpleExpression` returns its source
unchanged regardless of the scope (expression.go lines 246-248); a
`CompositeExpression` evaluates each sub-expression and splices the formatted
result over the `${...}` fragment with `strings.Replace(s, fragment, r, -1)`
(expression.go lines 272-283). -/
def Expression.Evaluate {σ : Type} (ev : String → σ → Except String Value)
    (scope : σ) : Expression → Except String Value
  | .simple s => .ok (.str s)
  | .single e => ev e scope
  | .composite src subs => do
    let s ← subs.foldlM (fun (s : String) e => do
      let r ← ev e scope
      pure (s.replace (startToken ++ e ++ endToken) (goFormatValue r))) src
    pure (.str s)

/-! ### Resource properties (src/unnamed/part_006, package resources) -/

/-- Property trees produced by `readProperty` (part_006 lines 285-341):
scalar leaves hold a parsed expression (`ExpressionResourceProperty`),
objects and arrays hold their children (`ObjectResourceProperty`,
`ArrayResourceProperty`); every node carries its dependency list. -/
inductive ResourceProperty where
  | expr (name : String) (e : Expression) (dependencies : List String)
  | obj (name : String) (properties : List (String × ResourceProperty))
      (dependencies : List String)
  | arr (name : String) (properties : List ResourceProperty)
      (dependencies : List String)

/-- The `Dependencies()` accessor of the three property kinds. -/
def ResourceProperty.Dependencies : ResourceProperty → List String
  | .expr _ _ d => d
  | .obj _ _ d => d
  | .arr _ _ d => d

mutual

/-- `readProperty` (part_006 lines 285-303): objects and arrays recurse,
any other value is parsed into an expression whose dependency list is
attached to the leaf. -/
def readProperty (name : String) : Json → Except String ResourceProperty
  | .obj fields =>
    match readObjectFields name fields with
    | .error e => .error e
    | .ok (props, deps) => .ok (.obj name props deps)
  | .arr elems =>
    match readArrayElems name 0 elems with
    | .error e => .error e
    | .ok (props, deps) => .ok (.arr name props deps)
  | .null =>
    match Parse .null with
    | .error e => .error e
    | .ok e => .ok (.expr name e e.Dependencies)
  | .bool b =>
    match Parse (.bool b) with
    | .error e => .error e
    | .ok e => .ok (.expr name e e.Dependencies)
  | .num n =>
    match Parse (.num n) with
    | .error e => .error e
    | .ok e => .ok (.expr name e e.Dependencies)
  | .str s =>
    match Parse (.str s) with
    | .error e => .error e
    | .ok e => .ok (.expr name e e.Dependencies)

/-- `readObjectProperty` (part_006 lines 305-322): read each field under the
name `<name>.<field>`; dependencies are the children's, appended in order. -/
def readObjectFields (name : String) :
    List (String × Json) → Except String (List (String × ResourceProperty) × List String)
  | [] => .ok ([], [])
  | (k, v) :: rest =>
    match readProperty (name ++ "." ++ k) v with
    | .error e => .error e
    | .ok p =>
      match readObjectFields name rest with
      | .error e => .error e
      | .ok (ps, ds) => .ok ((k, p) :: ps, p.Dependencies ++ ds)

/-- `readArrayProperty` (part_006 lines 324-341): read element `i` under the
name `<name>[i]`; dependencies are the children's, appended in order. -/
def readArrayElems (name : String) (i : Nat) :
    List Json → Except String (List ResourceProperty × List String)
  | [] => .ok ([], [])
  | v :: rest =>
    match readProperty (name ++ "[" ++ toString i ++ "]") v with
    | .error e => .error e
    | .ok p =>
      match readArrayElems name (i + 1) rest with
      | .error e => .error e
      | .ok (ps, ds) => .ok (p :: ps, p.Dependencies ++ ds)

end

/-- `ResourceProperties` (part_006 lines 124-127): the parsed top-level
properties and the resource's dependency set. -/
structure ResourceProperties where
  properties : List (String × ResourceProperty)
  dependencies : List String

/-- The top-level loop of `newResourceProperties` (part_006 lines 263-283):
each field is read under its own name; dependencies go into a string set. -/
def readTopFields :
    List (String × Json) → Except String (List (String × ResourceProperty) × List String)
  | [] => .ok ([], [])
  | (k, v) :: rest =>
    match readProperty k v with
    | .error e => .error e
    | .ok p =>
      match readTopFields rest with
      | .error e => .error e
      | .ok (ps, ds) => .ok ((k, p) :: ps, p.Dependencies ++ ds)

/-- `newResourceProperties` (part_006 lines 263-283): read every field and
collect the dependency union as a sorted set (`sets.String.List()`). -/
def newResourceProperties (properties : List (String × Json)) :
    Except String ResourceProperties :=
  match readTopFields properties with
  | .error e => .error e
  | .ok (props, deps) => .ok ⟨props, stringSet deps⟩

mutual

/-- Property evaluation.  `ExpressionResourceProperty.Evaluate` delegates to
the expression (part_006 lines 201-203); `ObjectResourceProperty.Evaluate`
rebuilds the map from evaluated children (lines 149-159);
`ArrayResourceProperty.Evaluate` allocates `make([]any, len(p.properties))`
— `n` nil values — and appends each evaluated element (lines 175-185). -/
def evalProperty {σ : Type} (ev : String → σ → Except String Value) (scope : σ) :
    ResourceProperty → Except String Value
  | .expr _ e _ => e.Evaluate ev scope
  | .obj _ props _ =>
    match evalObjectProps ev scope props with
    | .error e => .error e
    | .ok fields => .ok (.obj fields)
  | .arr _ props _ =>
    match evalArrayProps ev scope props (List.replicate props.length Value.null) with
    | .error e => .error e
    | .ok elems => .ok (.arr elems)

/-- The field loop of `ObjectResourceProperty.Evaluate`. -/
def evalObjectProps {σ : Type} (ev : String → σ → Except String Value) (scope : σ) :
    List (String × ResourceProperty) → Except String (List (String × Value))
  | [] => .ok []
  | (k, p) :: rest =>
    match evalProperty ev scope p with
    | .error e => .error e
    | .ok v =>
      match evalObjectProps ev scope rest with
      | .error e => .error e
      | .ok vs => .ok ((k, v) :: vs)

/-- The element loop of `ArrayResourceProperty.Evaluate`: append each result
to the accumulator, which starts as the pre-allocated nil-filled slice. -/
def evalArrayProps {σ : Type} (ev : String → σ → Except String Value) (scope : σ) :
    List ResourceProperty → List Value → Except String (List Value)
  | [], acc => .ok acc
  | p :: rest, acc =>
    match evalProperty ev scope p with
    | .error e => .error e
    | .ok v => evalArrayProps ev scope rest (acc ++ [v])

end

/-- `resources.Resource` (part_006 lines 102-107): name, the referenced
`ResourceRef` (modelled by its object name), parsed properties, and the
dependency list. -/
structure GroupResource where
  name : String
  refName : String
  properties : ResourceProperties
  dependencies : List String

/-- `resources.ResourceGroup` — the `all` map of registered resources. -/
abbrev ResourceGroupM := List (String × GroupResource)

/-- `ResourceGroup.NewResource` (part_006 lines 238-261) with the `Ref`
field assignment done by the caller (part_004 line 118): reject duplicate
names; a nil properties extension leaves the resource without properties;
otherwise the raw JSON must decode into a map (`null` decodes to an empty
one) and is read into expressions. -/
def newResource (all : ResourceGroupM) (name refName : String)
    (properties : Option Json) : Except String ResourceGroupM :=
  if (lookupA all name).isSome then
    .error ("resource " ++ name ++ " is duplicated; check the spec")
  else
    match properties with
    | none => .ok (upsert all name ⟨name, refName, ⟨[], []⟩, []⟩)
    | some .null => .ok (upsert all name ⟨name, refName, ⟨[], stringSet []⟩, stringSet []⟩)
    | some (.obj fields) =>
      match newResourceProperties fields with
      | .error e => .error e
      | .ok rp => .ok (upsert all name ⟨name, refName, rp, rp.dependencies⟩)
    | some _ => .error ("unable to unmarshall properties from " ++ name)

/-- One entry of `ResourceGroupDeployment.spec.resources`
(`api/v1alpha1.ResourceGroupElement`). -/
structure SpecResource where
  name : String
  resourceRef : String
  properties : Option Json

/-- Step 2 of the Planner reconcile (part_004 lines 102-119): for each spec
resource, fetch its `ResourceRef` (modelled by membership in the list of
existing `ResourceRef` names) and register the resource in the group. -/
def parseGroup (refNames : List String) :
    List SpecResource → ResourceGroupM → Except String ResourceGroupM
  | [], acc => .ok acc
  | r :: rest, acc =>
    if refNames.contains r.resourceRef then
      match newResource acc r.name r.resourceRef r.properties with
      | .error e => .error e
      | .ok acc' => parseGroup refNames rest acc'
    else .error ("unable to fetch ResourceRef " ++ r.resourceRef)

/-! ### `ResourceGroup.Graph` (part_006 lines 209-236)

`Graph` builds a `dominikbraun/graph` directed graph with `PreventCycles`
and runs `graph.StableTopologicalSort` with `less = (a < b)` on vertex
names.  The graph library is an external dependency (its source is not part
of this repository); it is modelled from its implementation and documented
contract: vertices live in an unordered map, `AddVertex` rejects duplicate
vertices, `AddEdge` rejects unknown endpoints, duplicate edges and edges
that would close a cycle, and the stable topological sort is Kahn's
algorithm over a FIFO queue — the queue is seeded with the zero-indegree
vertices sorted by `less`, and after each emission the vertices whose
predecessors are now all emitted (and that were never queued before) are
sorted by `less` and appended at the queue's tail.  The model performs the
same checks but in a fixed order (duplicate vertices, duplicate edges,
unknown endpoints, cycles), whereas the Go code fails at the first
offending `AddVertex`/`AddEdge` call; which inputs fail, and the order
returned on success, agree with the library. -/

/-- `vertexNameFn` (part_006 lines 212-214). -/
def vertexName (n : String) : String := "resources." ++ n

inductive GraphError where
  | duplicateVertex
  | duplicateEdge
  | vertexNotFound (v : String)
  | cycle
deriving DecidableEq

/-- The vertices added by `Graph` — one `resources.<name>` per resource. -/
def graphVertexList (gr : List (String × List String)) : List String :=
  gr.map (fun p => vertexName p.1)

/-- The edges added by `Graph` — `AddEdge(dependency, vertexNameFn(name))`
for every declared dependency (part_006 lines 223-231): the dependency
string itself is the edge source. -/
def graphEdgeList (gr : List (String × List String)) : List (String × String) :=
  gr.flatMap (fun p => p.2.map (fun d => (d, vertexName p.1)))

/-- A vertex is ready when every edge pointing at it has an already-emitted
source. -/
def readyV (edges : List (String × String)) (emitted : List String) (v : String) : Bool :=
  edges.all (fun e => (!(e.2 == v)) || emitted.contains e.1)

/-- Insert before the first element that is not smaller: `sort.Slice` with
the supplied `less` is modelled by insertion sort (the keys it sorts here
are pairwise distinct, so stability is immaterial). -/
def insertLt (x : String) : List String → List String
  | [] => [x]
  | y :: ys => if strLt x y then x :: y :: ys else y :: insertLt x ys

/-- `sort.Slice(l, less)` on pairwise-distinct keys. -/
def sortLt (l : List String) : List String := l.foldr insertLt []

/-- The frontier computed after each emission of
`graph.StableTopologicalSort`: the vertices that were never queued before
(`queued` is exactly the emitted vertices plus the current queue) and whose
predecessors are now all emitted, sorted by `less` before being appended to
the queue. -/
def kahnFrontier (verts : List String) (edges : List (String × String))
    (emitted queue : List String) : List String :=
  sortLt (verts.filter (fun w =>
    !((emitted ++ queue).contains w) && readyV edges emitted w))

/-- The queue loop of `graph.StableTopologicalSort`: a FIFO queue of
ready vertices.  Emitting the head appends the sorted frontier that this
emission frees to the queue's tail.  Recursion is bounded by fuel so the
definition is structural; every step emits one never-before-queued vertex,
so fuel `verts.length` runs the loop to completion. -/
def kahnAux (verts : List String) (edges : List (String × String)) :
    Nat → List String → List String → List String
  | 0, _, emitted => emitted
  | _ + 1, [], emitted => emitted
  | fuel + 1, v :: q, emitted =>
    kahnAux verts edges fuel
      (q ++ kahnFrontier verts edges (emitted ++ [v]) q) (emitted ++ [v])

/-- `graph.StableTopologicalSort` with `less = (a < b)`: seed the FIFO
queue with the sorted sources and run the loop. -/
def kahnRun (verts : List String) (edges : List (String × String)) : List String :=
  kahnAux verts edges verts.length (sortLt (verts.filter (readyV edges []))) []

/-- `ResourceGroup.Graph` on (name, dependencies) pairs.  Emitting fewer
vertices than the graph holds means the remaining edges close a cycle
(the library then reports the cycle, at `AddEdge` under `PreventCycles` or
at the sort). -/
def graphOf (gr : List (String × List String)) : Except GraphError (List String) :=
  let verts := stringSet (graphVertexList gr)
  let edges := graphEdgeList gr
  if (gr.map Prod.fst).Nodup then
    if edges.Nodup then
      match edges.find? (fun e => !(verts.contains e.1 && verts.contains e.2)) with
      | some e => .error (.vertexNotFound (if verts.contains e.1 then e.2 else e.1))
      | none =>
        if (kahnRun verts edges).length = verts.length then .ok (kahnRun verts edges)
        else .error .cycle
    else .error .duplicateEdge
  else .error .duplicateVertex

/-- The (name, dependencies) view of a registered resource group. -/
def grDeps (rg : ResourceGroupM) : List (String × List String) :=
  rg.map fun p => (p.1, p.2.dependencies)

/-- `ResourceGroup.Graph` (part_006 lines 209-236). -/
def Graph (rg : ResourceGroupM) : Except GraphError (List String) :=
  graphOf (grDeps rg)

/-- The edge relation of the built graph. -/
def edgeRel (gr : List (String × List String)) (x y : String) : Prop :=
  (x, y) ∈ graphEdgeList gr

/-- `y` depends (transitively) on `x`: a nonempty edge path from `x` to
`y`.  Two vertices are incomparable when neither depends on the other. -/
def DependsOn (gr : List (String × List String)) (x y : String) : Prop :=
  Relation.TransGen (edgeRel gr) x y

theorem mem_insertLt (x : String) : ∀ (l : List String) (y : String),
    y ∈ insertLt x l ↔ y = x ∨ y ∈ l := by
  intro l
  induction l with
  | nil => intro y; simp [insertLt]
  | cons a as ih =>
    intro y
    simp only [insertLt]
    split
    · simp only [List.mem_cons]
    · simp only [List.mem_cons, ih]
      tauto

theorem mem_sortLt : ∀ (l : List String) (y : String), y ∈ sortLt l ↔ y ∈ l := by
  intro l
  induction l with
  | nil => intro y; simp [sortLt]
  | cons a as ih =>
    intro y
    show y ∈ insertLt a (sortLt as) ↔ y ∈ a :: as
    rw [mem_insertLt, ih, List.mem_cons]

theorem nodup_insertLt (x : String) : ∀ (l : List String), x ∉ l → l.Nodup →
    (insertLt x l).Nodup := by
  intro l
  induction l with
  | nil => intro _ _; simp [insertLt]
  | cons a as ih =>
    intro hx h
    simp only [insertLt]
    split
    · exact List.nodup_cons.mpr ⟨hx, h⟩
    · have h0 := List.nodup_cons.mp h
      refine List.nodup_cons.mpr
        ⟨?_, ih (fun hxa => hx (List.mem_cons_of_mem _ hxa)) h0.2⟩
      intro hmem
      rcases (mem_insertLt x as a).mp hmem with h1 | h1
      · refine hx ?_
        rw [← h1]
        exact List.mem_cons_self _ _
      · exact h0.1 h1

theorem nodup_sortLt : ∀ (l : List String), l.Nodup → (sortLt l).Nodup := by
  intro l
  induction l with
  | nil => intro _; simp [sortLt]
  | cons a as ih =>
    intro h
    have h0 := List.nodup_cons.mp h
    show (insertLt a (sortLt as)).Nodup
    exact nodup_insertLt a (sortLt as) (fun hm => h0.1 ((mem_sortLt as a).mp hm)) (ih h0.2)

theorem contains_eq_false_of_not_mem (l : List String) (a : String) (h : a ∉ l) :
    l.contains a = false := by
  cases hc : l.contains a
  · rfl
  · obtain ⟨a', ha', hbeq⟩ := List.contains_iff_exists_mem_beq.mp hc
    rw [beq_iff_eq] at hbeq
    exact absurd (hbeq ▸ ha') h

theorem contains_eq_true_of_mem (l : List String) (a : String) (h : a ∈ l) :
    l.contains a = true :=
  List.contains_iff_exists_mem_beq.mpr ⟨a, h, by simp⟩

/-- Readiness is monotone in the emitted list. -/
theorem readyV_mono (edges : List (String × String)) (emitted : List String)
    (v w : String) (h : readyV edges emitted w = true) :
    readyV edges (emitted ++ [v]) w = true := by
  rw [readyV, List.all_eq_true] at h ⊢
  intro e he
  have h2 := h e he
  rw [Bool.or_eq_true] at h2 ⊢
  rcases h2 with h1 | h1
  · exact Or.inl h1
  · exact Or.inr (contains_eq_true_of_mem _ _
      (List.mem_append_left _ (List.elem_iff.mp h1)))

theorem get_congr {α : Type} (l l' : List α) (i : Nat) (h : l = l')
    (hi : i < l.length) : l.get ⟨i, hi⟩ = l'.get ⟨i, h ▸ hi⟩ := by
  subst h
  rfl

theorem get_append_prefix {α : Type} (l₁ l₂ : List α) :
    ∀ (i : Nat) (hi : i < l₁.length) (h : i < (l₁ ++ l₂).length),
      (l₁ ++ l₂).get ⟨i, h⟩ = l₁.get ⟨i, hi⟩ := by
  induction l₁ with
  | nil =>
    intro i hi _
    exact absurd hi (by simp)
  | cons a as ih =>
    intro i hi h
    cases i with
    | zero => rfl
    | succ n => exact ih n (by simpa using hi) (by simpa [Nat.succ_lt_succ_iff] using h)

theorem get_append_at {α : Type} (l₂ : List α) (a : α) :
    ∀ (l₁ : List α) (h : l₁.length < (l₁ ++ a :: l₂).length),
      (l₁ ++ a :: l₂).get ⟨l₁.length, h⟩ = a := by
  intro l₁
  induction l₁ with
  | nil => intro _; rfl
  | cons x xs ih => intro h; exact ih (by simp)

/-- `kahnAux` only ever appends to the emitted list. -/
theorem kahnAux_extends (verts : List String) (edges : List (String × String)) :
    ∀ (fuel : Nat) (queue emitted : List String),
      ∃ ext, kahnAux verts edges fuel queue emitted = emitted ++ ext := by
  intro fuel
  induction fuel with
  | zero => intro queue emitted; exact ⟨[], by simp [kahnAux]⟩
  | succ fuel ih =>
    intro queue emitted
    cases queue with
    | nil => exact ⟨[], by simp [kahnAux]⟩
    | cons v q =>
      obtain ⟨ext, hext⟩ :=
        ih (q ++ kahnFrontier verts edges (emitted ++ [v]) q) (emitted ++ [v])
      refine ⟨v :: ext, ?_⟩
      show kahnAux verts edges fuel
        (q ++ kahnFrontier verts edges (emitted ++ [v]) q) (emitted ++ [v])
        = emitted ++ v :: ext
      rw [hext]
      simp

/-- The emitted result is duplicate-free and stays within the vertex set,
whenever the queue is fresh (disjoint from the emitted, duplicate-free)
and inside the vertex set. -/
theorem kahnAux_nodup_subset (verts : List String) (edges : List (String × String))
    (hv : verts.Nodup) :
    ∀ (fuel : Nat) (queue emitted : List String),
      (emitted ++ queue).Nodup → (∀ w ∈ queue, w ∈ verts) →
      (kahnAux verts edges fuel queue emitted).Nodup
      ∧ ∀ w ∈ kahnAux verts edges fuel queue emitted, w ∈ emitted ∨ w ∈ verts := by
  intro fuel
  induction fuel with
  | zero =>
    intro queue emitted hnd _
    constructor
    · show emitted.Nodup
      exact (List.nodup_append.mp hnd).1
    · intro w hw
      exact Or.inl hw
  | succ fuel ih =>
    intro queue emitted hnd hsub
    cases queue with
    | nil =>
      constructor
      · show emitted.Nodup
        simpa using hnd
      · intro w hw
        exact Or.inl hw
    | cons v q =>
      have hfr_sub : ∀ w ∈ kahnFrontier verts edges (emitted ++ [v]) q, w ∈ verts := by
        intro w hw
        exact List.mem_of_mem_filter ((mem_sortLt _ w).mp hw)
      have hfr_nodup : (kahnFrontier verts edges (emitted ++ [v]) q).Nodup :=
        nodup_sortLt _ (hv.filter _)
      have hfr_fresh : ∀ w ∈ kahnFrontier verts edges (emitted ++ [v]) q,
          w ∉ (emitted ++ [v]) ++ q := by
        intro w hw hmem
        have hcond := List.of_mem_filter ((mem_sortLt _ w).mp hw)
        rw [Bool.and_eq_true] at hcond
        have h1 := hcond.1
        rw [contains_eq_true_of_mem _ _ hmem] at h1
        simp at h1
      have hnd1 : ((emitted ++ [v]) ++ q).Nodup := by
        rw [List.append_assoc]
        exact hnd
      have hnd2 : ((emitted ++ [v]) ++ (q ++ kahnFrontier verts edges (emitted ++ [v]) q)).Nodup := by
        rw [← List.append_assoc]
        rw [List.nodup_append]
        exact ⟨hnd1, hfr_nodup, fun x hx hx' => hfr_fresh x hx' hx⟩
      have hsub' : ∀ w ∈ q ++ kahnFrontier verts edges (emitted ++ [v]) q, w ∈ verts := by
        intro w hw
        rcases List.mem_append.mp hw with h | h
        · exact hsub w (List.mem_cons_of_mem _ h)
        · exact hfr_sub w h
      obtain ⟨hresnd, hresmem⟩ :=
        ih (q ++ kahnFrontier verts edges (emitted ++ [v]) q) (emitted ++ [v]) hnd2 hsub'
      constructor
      · exact hresnd
      · intro w hw
        rcases hresmem w hw with h | h
        · rcases List.mem_append.mp h with h' | h'
          · exact Or.inl h'
          · have hwv : w = v := by simpa using h'
            refine Or.inr ?_
            rw [hwv]
            exact hsub v (List.mem_cons_self _ _)
        · exact Or.inr h

theorem readyV_spec (edges : List (String × String)) (emitted : List String)
    (v : String) (h : readyV edges emitted v = true) :
    ∀ s t, (s, t) ∈ edges → t = v → s ∈ emitted := by
  intro s t hmem ht
  have := List.all_eq_true.mp h _ hmem
  subst ht
  simp only [beq_self_eq_true, Bool.not_true, Bool.false_or] at this
  exact List.elem_iff.mp this

/-- Every vertex in the queue was ready when it was enqueued, and readiness
is monotone; so once the head is emitted all its predecessors already stand
strictly earlier in the result. -/
theorem kahnAux_edge_before (verts : List String) (edges : List (String × String)) :
    ∀ (fuel : Nat) (queue emitted : List String),
      (∀ w ∈ queue, readyV edges emitted w = true) →
      ∀ s t, (s, t) ∈ edges →
      ∀ i, ∀ hi : i < (kahnAux verts edges fuel queue emitted).length,
        (kahnAux verts edges fuel queue emitted).get ⟨i, hi⟩ = t →
        emitted.length ≤ i →
        ∃ j, ∃ hj : j < (kahnAux verts edges fuel queue emitted).length,
          j < i ∧ (kahnAux verts edges fuel queue emitted).get ⟨j, hj⟩ = s := by
  intro fuel
  induction fuel with
  | zero =>
    intro queue emitted _ s t _ i hi _ hle
    have hi' : i < emitted.length := hi
    omega
  | succ fuel ih =>
    intro queue emitted hready s t hst i hi hget hle
    cases queue with
    | nil =>
      have hi' : i < emitted.length := hi
      omega
    | cons v q =>
      by_cases hiv : i = emitted.length
      · obtain ⟨ext, hext⟩ := kahnAux_extends verts edges fuel
          (q ++ kahnFrontier verts edges (emitted ++ [v]) q) (emitted ++ [v])
        have hres : kahnAux verts edges (fuel + 1) (v :: q) emitted
            = emitted ++ v :: ext := by
          show kahnAux verts edges fuel
            (q ++ kahnFrontier verts edges (emitted ++ [v]) q) (emitted ++ [v])
            = emitted ++ v :: ext
          rw [hext]
          simp
        have hgv : t = v := by
          have h1 := get_congr _ _ i hres hi
          rw [hget] at h1
          rw [show (⟨i, hres ▸ hi⟩ : Fin (emitted ++ v :: ext).length)
              = ⟨emitted.length, by rw [← hiv]; exact hres ▸ hi⟩ from by
            exact Fin.ext hiv] at h1
          rw [get_append_at ext v emitted] at h1
          exact h1
        have hs_em : s ∈ emitted :=
          readyV_spec edges emitted v (hready v (List.mem_cons_self _ _)) s t hst hgv
        obtain ⟨⟨j, hj⟩, hjget⟩ := List.mem_iff_get.mp hs_em
        have hjlt : j < (kahnAux verts edges (fuel + 1) (v :: q) emitted).length := by
          rw [hres, List.length_append]
          omega
        refine ⟨j, hjlt, by omega, ?_⟩
        rw [get_congr _ _ j hres hjlt, get_append_prefix emitted (v :: ext) j hj]
        exact hjget
      · have hready' : ∀ w ∈ q ++ kahnFrontier verts edges (emitted ++ [v]) q,
            readyV edges (emitted ++ [v]) w = true := by
          intro w hw
          rcases List.mem_append.mp hw with h | h
          · exact readyV_mono edges emitted v w (hready w (List.mem_cons_of_mem _ h))
          · have hc := List.of_mem_filter ((mem_sortLt _ w).mp h)
            rw [Bool.and_eq_true] at hc
            exact hc.2
        have hle' : (emitted ++ [v]).length ≤ i := by
          rw [List.length_append]
          simp only [List.length_cons, List.length_nil]
          omega
        exact ih (q ++ kahnFrontier verts edges (emitted ++ [v]) q) (emitted ++ [v])
          hready' s t hst i hi hget hle'

theorem all_congr_mem {α : Type} (l l' : List α) (p : α → Bool)
    (h : ∀ x, x ∈ l ↔ x ∈ l') : l.all p = l'.all p := by
  cases hl : l.all p
  · cases hl' : l'.all p
    · rfl
    · exfalso
      have : l.all p = true :=
        List.all_eq_true.mpr fun x hx => List.all_eq_true.mp hl' x ((h x).mp hx)
      rw [hl] at this
      exact Bool.noConfusion this
  · cases hl' : l'.all p
    · exfalso
      have : l'.all p = true :=
        List.all_eq_true.mpr fun x hx => List.all_eq_true.mp hl x ((h x).mpr hx)
      rw [hl'] at this
      exact Bool.noConfusion this
    · rfl

theorem readyV_congr (edges edges' : List (String × String)) (emitted : List String)
    (h : ∀ e, e ∈ edges ↔ e ∈ edges') (v : String) :
    readyV edges emitted v = readyV edges' emitted v :=
  all_congr_mem edges edges' _ h

theorem kahnAux_congr (verts : List String) (edges edges' : List (String × String))
    (h : ∀ e, e ∈ edges ↔ e ∈ edges') :
    ∀ (fuel : Nat) (queue emitted : List String),
      kahnAux verts edges fuel queue emitted = kahnAux verts edges' fuel queue emitted := by
  intro fuel
  induction fuel with
  | zero =>
    intro queue emitted
    rfl
  | succ fuel ih =>
    intro queue emitted
    cases queue with
    | nil => rfl
    | cons v q =>
      show kahnAux verts edges fuel
          (q ++ kahnFrontier verts edges (emitted ++ [v]) q) (emitted ++ [v])
        = kahnAux verts edges' fuel
          (q ++ kahnFrontier verts edges' (emitted ++ [v]) q) (emitted ++ [v])
      have hfr : kahnFrontier verts edges (emitted ++ [v]) q
          = kahnFrontier verts edges' (emitted ++ [v]) q := by
        simp only [kahnFrontier]
        congr 1
        apply List.filter_congr
        intro w _
        rw [readyV_congr edges edges' (emitted ++ [v]) h w]
      rw [hfr]
      exact ih _ _

theorem kahnRun_congr (verts : List String) (edges edges' : List (String × String))
    (h : ∀ e, e ∈ edges ↔ e ∈ edges') :
    kahnRun verts edges = kahnRun verts edges' := by
  simp only [kahnRun]
  rw [List.filter_congr (fun w _ => readyV_congr edges edges' [] h w)]
  exact kahnAux_congr verts edges edges' h _ _ _

example : graphOf [("a", []), ("b", ["resources.a"])]
    = .ok ["resources.a", "resources.b"] := rfl
example : graphOf [("a", ["resources.b"]), ("b", ["resources.a"])]
    = .error .cycle := rfl
example : graphOf [("a", ["resources.b"]), ("b", []), ("c", [])]
    = .ok ["resources.b", "resources.c", "resources.a"] := rfl
example : graphOf [("a", ["resources.c"]), ("b", []), ("c", [])]
    = .ok ["resources.b", "resources.c", "resources.a"] := rfl
example : graphOf [("x", ["refs.env"])]
    = .error (.vertexNotFound "refs.env") := rfl
example : graphOf [("x", [""])]
    = .error (.vertexNotFound "") := rfl

/-! ### Phase and condition constants

From `src/unnamed/part_001` (deployment phases and condition vocabulary)
and `src/api/v1alpha1/resource_types.go` (Resource status phases). -/

def DeploymentInProgressPhase : String := "DeploymentInProgress"
def DeploymentDonePhase : String := "DeploymentDone"
def DeploymentFailedPhase : String := "DeploymentFailed"

def ResourceDeployingStatusPhase : String := "Deploying"
def ResourceFailedStatusPhase : String := "Failed"
def ResourceDoneStatusPhase : String := "Done"

def ConditionTypeInitializing : String := "Initializing"
def ConditionTypeInProgress : String := "InProgress"
def ConditionTypeFailed : String := "Failed"
def ConditionTypeReady : String := "Ready"

def ConditionReasonReconciling : String := "Reconciling"
def ConditionReasonDeploymentInProgress : String := "DeploymentInProgress"
def ConditionReasonDeploymentDone : String := "DeploymentDone"
def ConditionReasonDeploymentFailed : String := "DeploymentFailed"

/-- `StatusPhaseToReason` (part_001 lines 23-33). -/
def StatusPhaseToReason (phase : String) : String :=
  if phase = DeploymentInProgressPhase then ConditionReasonDeploymentInProgress
  else if phase = DeploymentDonePhase then ConditionReasonDeploymentDone
  else if phase = DeploymentFailedPhase then ConditionReasonDeploymentFailed
  else phase

/-! ### ResourceGroupDeployment reconciler — the Planner (part_004)

The reconcile's interactions with the object store are modelled against an
explicit store of Resource objects keyed by object name (all objects live in
the deployment's namespace).  Store writes succeed; `spec.parameters`
deserialization and `spec.refs` resolution (part_004 lines 78-97) always
succeed trivially here because the claims under verification use
deployments without parameters or spec-level refs — neither feeds into any
claim's observable. -/

/-- Modelled from the spec: resource object names are
`<deployment>.<kebab(resource.name)>` (§3, Naming); the reconciler calls
`resource.NameAsKebabCase()` (part_004 line 157) but that helper's
definition is not among the sources under `src/`.  Kebab-case conversion is
modelled as lowercasing ASCII letters and replacing spaces and underscores
with hyphens; on names already in lower-kebab form it is the identity. -/
def nameAsKebabCase (s : String) : String :=
  String.mk (s.data.map fun c => if c = ' ' ∨ c = '_' then '-' else c.toLower)

/-- The slice of a `Resource` object the Planner reads and writes: the
status phase (empty until a Materializer pass sets it), the spec properties
(kept as the expanded value rather than marshalled JSON bytes), and the
status outputs. -/
structure RObj where
  phase : String
  properties : Value
  outputs : Option Value

/-- The Resource objects of the deployment's namespace, keyed by name. -/
abbrev RStore := List (String × RObj)

/-- The evaluation scope threaded through the driver loop.  The Go code
builds `ResourcePropertiesArgs` from parameters and refs and extends it
with `WithResource(name, resource)` — a JSON round-trip of the whole
Resource object (part_006 lines 43-100, part_004 line 244).  Expression
evaluation itself is the external `expr-lang` interpreter (abstracted as
the `ev` parameter), so the scope is modelled as the map of resources
accumulated so far and `WithResource` as a map update. -/
abbrev PlannerScope := List (String × RObj)

/-- Group-1 capture of `resourcesRe = resources\.([^.]+)` — unlike the
dependency regex no trailing dot is required, and the capture group is only
the short name. -/
def matchShortNameAt (l : List Char) : Option (List Char) :=
  if resourcesRootPrefix.isPrefixOf l then
    let run := (l.drop resourcesRootPrefix.length).takeWhile (fun c => c ≠ dotChar)
    if run.isEmpty then none else some run
  else none

/-- Leftmost `resources\.([^.]+)` capture. -/
def findShortName : List Char → Option (List Char)
  | [] => none
  | c :: cs =>
    match matchShortNameAt (c :: cs) with
    | some g => some g
    | none => findShortName cs

/-- `ResourceGroup.Get` (part_006 lines 25-37): when the name matches
`resources\.([^.]+)` the capture replaces it; then look the resource up. -/
def groupGet (rg : ResourceGroupM) (name : String) : Except String GroupResource :=
  let shortName :=
    match findShortName name.data with
    | some g => String.mk g
    | none => name
  match lookupA rg shortName with
  | some r => .ok r
  | none => .error ("resource " ++ shortName ++ " is not registered")

/-- `Resource.Evaluate` (part_006 lines 109-120): evaluate every top-level
property into a fresh map. -/
def resourceEvaluate {σ : Type} (ev : String → σ → Except String Value) (scope : σ)
    (r : GroupResource) : Except String (List (String × Value)) :=
  evalObjectProps ev scope r.properties.properties

/-- One deployment as the Planner reconcile sees it. -/
structure DeploymentIn where
  name : String
  hasConditions : Bool
  phase : String
  resources : List SpecResource

/-- The reconcile's returned `ctrl.Result` / error. -/
inductive POutcome where
  | requeue5
  | done
  | error
deriving DecidableEq

/-- Observable outcome of a Planner reconcile: the result, the Resource
store after the pass, the deployment's status phase, and the conditions
written during the pass as (type, reason) pairs. -/
structure PlannerResult where
  outcome : POutcome
  store : RStore
  phase : String
  conditions : List (String × String)

/-- Intermediate outcome of the driver loop. -/
inductive LoopOut where
  | err (store : RStore) (conditions : List (String × String))
  | early (store : RStore) (conditions : List (String × String))
  | through (store : RStore) (know : List (String × String))
      (conditions : List (String × String))

/-- Step 4 of the Planner reconcile — the driver loop (part_004 lines
134-251) over the topological order: look the resource up, evaluate its
properties against the current scope, and then: if the Resource object does
not exist, create it, emit the `InProgress/DeploymentInProgress` condition
and return to requeue after 5s; otherwise update its spec properties, and
return with a requeue iff the object's status phase equals
`DeploymentInProgressPhase` (line 239 compares the Resource status phase
against that deployment phase constant); otherwise record the resource in
the scope and in `knowResources` and continue. -/
def driveLoop (ev : String → PlannerScope → Except String Value)
    (depName : String) (rg : ResourceGroupM) :
    List String → RStore → PlannerScope → List (String × String) →
      List (String × String) → LoopOut
  | [], store, _, know, conds => .through store know conds
  | v :: rest, store, scope, know, conds =>
    match groupGet rg v with
    | .error _ => .err store conds
    | .ok r =>
      match resourceEvaluate ev scope r with
      | .error _ => .err store conds
      | .ok expanded =>
        let rname := depName ++ "." ++ nameAsKebabCase r.name
        match lookupA store rname with
        | none =>
          .early (upsert store rname ⟨"", .obj expanded, none⟩)
            (conds ++ [(ConditionTypeInProgress, ConditionReasonDeploymentInProgress)])
        | some obj =>
          let updated : RObj := ⟨obj.phase, .obj expanded, obj.outputs⟩
          let store' := upsert store rname updated
          if obj.phase = DeploymentInProgressPhase then
            .early store' conds
          else
            driveLoop ev depName rg rest store'
              (upsert scope r.name updated) (upsert know rname obj.phase) conds

/-- Status aggregation (part_004 lines 255-268): starting from
`DeploymentDonePhase`, the first known resource whose status phase equals
`DeploymentFailedPhase` or `DeploymentInProgressPhase` switches the
deployment phase and condition type (`break`).  `knowResources` is a Go map,
so its iteration order is unspecified; the model iterates in insertion
order, which matters only when both phases occur at once. -/
def aggregatePhase (know : List (String × String)) : String × String :=
  match know.find?
      (fun kv => kv.2 == DeploymentFailedPhase || kv.2 == DeploymentInProgressPhase) with
  | some kv =>
    if kv.2 == DeploymentFailedPhase then (ConditionTypeFailed, DeploymentFailedPhase)
    else (ConditionTypeInProgress, DeploymentInProgressPhase)
  | none => (ConditionTypeReady, DeploymentDonePhase)

/-- `ResourceGroupDeploymentReconciler.Reconcile` (part_004 lines 60-290):
seed the initializing condition and `DeploymentInProgress` phase on first
observation; resolve each resource's `ResourceRef` and parse the group;
build the graph; drive the topological order; aggregate the phase; emit the
matching condition; requeue unless the phase is `DeploymentDonePhase`. -/
def plannerReconcile (ev : String → PlannerScope → Except String Value)
    (refNames : List String) (dep : DeploymentIn) (store : RStore) : PlannerResult :=
  let seed :=
    if dep.hasConditions then (dep.phase, ([] : List (String × String)))
    else (DeploymentInProgressPhase, [(ConditionTypeInitializing, ConditionReasonReconciling)])
  match parseGroup refNames dep.resources [] with
  | .error _ => ⟨.error, store, seed.1, seed.2⟩
  | .ok rg =>
    match Graph rg with
    | .error _ => ⟨.error, store, seed.1, seed.2⟩
    | .ok dag =>
      match driveLoop ev dep.name rg dag store [] [] [] with
      | .err st cs => ⟨.error, st, seed.1, seed.2 ++ cs⟩
      | .early st cs => ⟨.requeue5, st, seed.1, seed.2 ++ cs⟩
      | .through st know cs =>
        let agg := aggregatePhase know
        ⟨if agg.2 = DeploymentDonePhase then .done else .requeue5,
          st, agg.2, seed.2 ++ cs ++ [(agg.1, StatusPhaseToReason agg.2)]⟩

/-! ### ResourceGroup reconciler — BundleFanout
(src/internal/controller/resourcegroup_controller.go)

The reconcile reads the referenced `ResourceRef`s' published placements,
then ensures one `ResourceGroupDeployment` per placement inside the
group-owned namespace (named after the group, assumed present — namespace
creation is lines 75-115 and succeeds in the model).  Deployments are keyed
by name within that namespace. -/

/-- `ResourceGroupDeploymentStatusPhase` value set by the fan-out after
creating a deployment (line 174). -/
def DeploymentRunningPhase : String := "Running"

/-- Modelled from the spec: the aggregated group phase values
(`DeploymentInProgress` / `DeploymentDone`, §4.2 step 4).  The controller
references `resourcesv1alpha1.ResourceGroupDeploymentInProgressPhase` and
`...DonePhase`, whose defining file is not among the sources under
`src/`. -/
def ResourceGroupDeploymentInProgressPhase : String := "DeploymentInProgress"
def ResourceGroupDeploymentDonePhase : String := "DeploymentDone"

/-- The slice of a `ResourceGroupDeployment` the fan-out reads and writes:
`spec.placement`, `spec.resources` (as (name, resourceRef) pairs) and the
status phase. -/
structure DObj where
  placement : String
  resourcesSpec : List (String × String)
  phase : String

/-- Deployment objects of the group's namespace, keyed by name. -/
abbrev DStore := List (String × DObj)

/-- A `ResourceGroup` as the fan-out sees it: its name and its
`spec.resources` as (name, resourceRef) pairs. -/
structure GroupIn where
  name : String
  resources : List (String × String)

/-- Step 1 of the fan-out (lines 119-131): fetch each resource's
`ResourceRef` and collect `status.placements`; a missing ref aborts the
reconcile (`Requeue: false`). -/
def collectPlacements (refStore : List (String × List String)) :
    List (String × String) → Option (List String)
  | [] => some []
  | (_, refName) :: rest =>
    match lookupA refStore refName with
    | none => none
    | some ps =>
      match collectPlacements refStore rest with
      | none => none
      | some acc => some (ps ++ acc)

/-- Step 2 of the fan-out (lines 136-192): for each placement (the sorted
set list), create the deployment `<group>.<placement>` if absent — the
freshly created object is tracked with status phase `Running` (line 174) —
or update its spec; record it in `knowDeployments`.  `knowDeployments` is a
Go map; the loop's placements are pairwise distinct, so tracking insertions
in a list is equivalent. -/
def fanoutLoop (g : GroupIn) :
    List String → DStore → List (String × String) → DStore × List (String × String)
  | [], st, kn => (st, kn)
  | p :: rest, st, kn =>
    let dname := g.name ++ "." ++ p
    match lookupA st dname with
    | none =>
      fanoutLoop g rest (upsert st dname ⟨p, g.resources, ""⟩)
        (kn ++ [(dname, DeploymentRunningPhase)])
    | some old =>
      fanoutLoop g rest (upsert st dname ⟨p, g.resources, old.phase⟩)
        (kn ++ [(dname, old.phase)])

/-- `ResourceGroupReconciler.Reconcile` (lines 58-231), starting after the
namespace step: collect the placement union; fan deployments out; aggregate
the group phase (`DeploymentInProgress` iff some tracked deployment is
`Running`, lines 194-200).  Returns `none` when a referenced ResourceRef is
missing (early return). -/
def bundleFanout (g : GroupIn) (refStore : List (String × List String))
    (store : DStore) : Option (DStore × List (String × String) × String) :=
  match collectPlacements refStore g.resources with
  | none => none
  | some raw =>
    let placements := stringSet raw
    let out := fanoutLoop g placements store []
    let groupPhase :=
      if out.2.any (fun kv => kv.2 == DeploymentRunningPhase) then
        ResourceGroupDeploymentInProgressPhase
      else ResourceGroupDeploymentDonePhase
    some (out.1, out.2, groupPhase)

/-! ### General lemmas used by the claim proofs -/

theorem lookupA_eq_none_iff {α : Type} (l : List (String × α)) (k : String) :
    lookupA l k = none ↔ k ∉ l.map Prod.fst := by
  induction l with
  | nil => simp [lookupA]
  | cons p rest ih =>
    obtain ⟨k0, v0⟩ := p
    simp only [lookupA, List.map_cons, List.mem_cons]
    by_cases h : k0 = k
    · subst h
      simp
    · simp only [if_neg h, ih]
      constructor
      · intro hn hc
        rcases hc with hc | hc
        · exact h hc.symm
        · exact hn hc
      · intro hn
        intro hc
        exact hn (Or.inr hc)

theorem lookupA_mem {α : Type} (l : List (String × α)) (k : String) (v : α)
    (h : lookupA l k = some v) : (k, v) ∈ l := by
  induction l with
  | nil => exact Option.noConfusion h
  | cons p rest ih =>
    obtain ⟨k0, v0⟩ := p
    simp only [lookupA] at h
    by_cases hk : k0 = k
    · subst hk
      rw [if_pos rfl] at h
      injection h with h
      subst h
      exact List.mem_cons_self _ _
    · rw [if_neg hk] at h
      exact List.mem_cons_of_mem _ (ih h)

theorem upsert_of_lookup_none {α : Type} (store : List (String × α)) (k : String) (v : α)
    (h : lookupA store k = none) : upsert store k v = store ++ [(k, v)] := by
  induction store with
  | nil => rfl
  | cons p rest ih =>
    obtain ⟨k0, v0⟩ := p
    simp only [lookupA] at h
    by_cases hk : k0 = k
    · rw [if_pos hk] at h
      exact Option.noConfusion h
    · rw [if_neg hk] at h
      simp only [upsert, if_neg hk, List.cons_append]
      rw [ih h]

theorem mem_upsert_of_ne {α : Type} (store : List (String × α)) (k k' : String)
    (v v' : α) (h : (k', v') ∈ store) (hne : k' ≠ k) : (k', v') ∈ upsert store k v := by
  induction store with
  | nil => simp at h
  | cons p rest ih =>
    obtain ⟨k0, v0⟩ := p
    simp only [upsert]
    rcases List.mem_cons.mp h with h0 | h0
    · injection h0 with h1 h2
      subst h1
      subst h2
      rw [if_neg (by exact hne)]
      exact List.mem_cons_self _ _
    · split
      · exact List.mem_cons_of_mem _ h0
      · exact List.mem_cons_of_mem _ (ih h0)

/-- Left-cancellation of string append. -/
theorem strAppend_cancel_left (s a b : String) (h : s ++ a = s ++ b) : a = b := by
  have hd := congrArg String.data h
  rw [String.data_append, String.data_append] at hd
  have hd' := List.append_cancel_left hd
  cases a
  cases b
  exact congrArg String.mk hd'

theorem vertexName_inj (a b : String) (h : vertexName a = vertexName b) : a = b :=
  strAppend_cancel_left "resources." a b h

theorem vertexName_ne_empty (n : String) : vertexName n ≠ "" := by
  intro h
  have := congrArg (fun s => s.data.length) h
  simp [vertexName, String.data_append] at this

/-- A string starting with `refs.` cannot be a `resources.`-prefixed vertex
name. -/
theorem refs_prefix_not_resources (l : List Char)
    (h1 : refsRootPrefix.isPrefixOf l = true)
    (h2 : resourcesRootPrefix.isPrefixOf l = true) : False := by
  have e1 : refsRootPrefix = ['r', 'e', 'f', 's', dotChar] := rfl
  have e2 : resourcesRootPrefix =
      ['r', 'e', 's', 'o', 'u', 'r', 'c', 'e', 's', dotChar] := rfl
  rw [e1] at h1
  rw [e2] at h2
  cases l with
  | nil => simp [List.isPrefixOf] at h1
  | cons c1 l1 =>
    cases l1 with
    | nil => simp [List.isPrefixOf] at h1
    | cons c2 l2 =>
      cases l2 with
      | nil => simp [List.isPrefixOf] at h1
      | cons c3 l3 =>
        simp only [List.isPrefixOf, Bool.and_eq_true, beq_iff_eq] at h1 h2
        obtain ⟨hc1, hc2, hc3, _⟩ := h1
        obtain ⟨hc1', hc2', hc3', _⟩ := h2
        rw [← hc3] at hc3'
        exact absurd hc3' (by decide)

theorem refs_ne_vertexName (d : String)
    (h : refsRootPrefix.isPrefixOf d.data = true) (n : String) :
    d ≠ vertexName n := by
  intro hEq
  apply refs_prefix_not_resources d.data h
  rw [hEq]
  show resourcesRootPrefix.isPrefixOf ("resources." ++ n).data = true
  rw [String.data_append]
  have hres : resourcesRootPrefix = "resources.".data := rfl
  rw [hres, List.isPrefixOf_iff_prefix]
  exact List.prefix_append _ _

/-- Inversion of a successful `graphOf`: all checks passed and the sort
succeeded. -/
theorem graphOf_ok_inv (gr : List (String × List String)) (order : List String)
    (hok : graphOf gr = .ok order) :
    (gr.map Prod.fst).Nodup ∧ (graphEdgeList gr).Nodup
    ∧ (graphEdgeList gr).find? (fun e =>
        !((stringSet (graphVertexList gr)).contains e.1 &&
          (stringSet (graphVertexList gr)).contains e.2)) = none
    ∧ kahnRun (stringSet (graphVertexList gr)) (graphEdgeList gr) = order
    ∧ order.length = (stringSet (graphVertexList gr)).length := by
  by_cases h1 : (gr.map Prod.fst).Nodup
  · by_cases h2 : (graphEdgeList gr).Nodup
    · cases hfind : (graphEdgeList gr).find? (fun e =>
          !((stringSet (graphVertexList gr)).contains e.1 &&
            (stringSet (graphVertexList gr)).contains e.2)) with
      | some e =>
        exfalso
        simp only [graphOf] at hok
        rw [if_pos h1, if_pos h2] at hok
        simp only [hfind] at hok
        exact Except.noConfusion hok
      | none =>
        refine ⟨h1, h2, rfl, ?_⟩
        simp only [graphOf] at hok
        rw [if_pos h1, if_pos h2] at hok
        simp only [hfind] at hok
        by_cases hlen : (kahnRun (stringSet (graphVertexList gr))
              (graphEdgeList gr)).length = (stringSet (graphVertexList gr)).length
        · rw [if_pos hlen] at hok
          injection hok with hok
          exact ⟨hok, hok ▸ hlen⟩
        · rw [if_neg hlen] at hok
          exact Except.noConfusion hok
    · exfalso
      simp only [graphOf] at hok
      rw [if_pos h1, if_neg h2] at hok
      exact Except.noConfusion hok
  · exfalso
    simp only [graphOf] at hok
    rw [if_neg h1] at hok
    exact Except.noConfusion hok

theorem mem_graphEdgeList (gr : List (String × List String)) (n : String)
    (ds : List String) (d : String) (hmem : (n, ds) ∈ gr) (hd : d ∈ ds) :
    (d, vertexName n) ∈ graphEdgeList gr := by
  simp only [graphEdgeList, List.mem_flatMap]
  exact ⟨(n, ds), hmem, List.mem_map.mpr ⟨d, hd, rfl⟩⟩

theorem edge_snd_mem_verts (gr : List (String × List String)) (e : String × String)
    (he : e ∈ graphEdgeList gr) : e.2 ∈ stringSet (graphVertexList gr) := by
  rw [mem_stringSet]
  simp only [graphEdgeList, List.mem_flatMap, List.mem_map] at he
  obtain ⟨p, hp, d, _, hEq⟩ := he
  rw [← hEq]
  exact List.mem_map.mpr ⟨p, hp, rfl⟩

theorem edge_fst_dep (gr : List (String × List String)) (e : String × String)
    (he : e ∈ graphEdgeList gr) : ∃ p ∈ gr, e.1 ∈ p.2 := by
  simp only [graphEdgeList, List.mem_flatMap, List.mem_map] at he
  obtain ⟨p, hp, d, hd, hEq⟩ := he
  exact ⟨p, hp, by rw [← hEq]; exact hd⟩

theorem graphEdgeList_nodup (gr : List (String × List String))
    (hn : (gr.map Prod.fst).Nodup) (hd : ∀ p ∈ gr, (p.2 : List String).Nodup) :
    (graphEdgeList gr).Nodup := by
  induction gr with
  | nil => simp [graphEdgeList]
  | cons p rest ih =>
    obtain ⟨n, ds⟩ := p
    rw [List.map_cons] at hn
    have hn0 := List.nodup_cons.mp hn
    simp only [graphEdgeList, List.flatMap_cons]
    rw [List.nodup_append]
    refine ⟨?_, ?_, ?_⟩
    · refine List.Nodup.map ?_ (hd (n, ds) (List.mem_cons_self _ _))
      intro a b hab
      exact congrArg Prod.fst hab
    · exact ih hn0.2 (fun q hq => hd q (List.mem_cons_of_mem _ hq))
    · intro x hx1 hx2
      obtain ⟨d, _, hEq⟩ := List.mem_map.mp hx1
      obtain ⟨q, hq, d', _, hEq'⟩ := by
        simpa only [graphEdgeList, List.mem_flatMap, List.mem_map] using hx2
      have hqq : vertexName n = vertexName q.1 :=
        congrArg Prod.snd (hEq.trans hEq'.symm)
      have hqn : q.1 = n := vertexName_inj _ _ hqq.symm
      exact hn0.1 (hqn ▸ List.mem_map.mpr ⟨q, hq, rfl⟩)

theorem grDeps_names (rg : ResourceGroupM) :
    (grDeps rg).map Prod.fst = rg.map Prod.fst := by
  simp [grDeps, List.map_map]

/-- Any dependency that is not a `resources.<name>` vertex makes `Graph`
fail with a vertex-not-found error; the reported vertex is itself a declared
dependency of some resource. -/
theorem Graph_error_of_bad_dep (rg : ResourceGroupM) (n : String) (r : GroupResource)
    (d : String)
    (hn : (rg.map Prod.fst).Nodup)
    (hnd : ∀ p ∈ rg, p.2.dependencies.Nodup)
    (hmem : (n, r) ∈ rg) (hd : d ∈ r.dependencies)
    (hbad : ∀ m : String, d ≠ vertexName m) :
    ∃ v, Graph rg = .error (.vertexNotFound v)
      ∧ (stringSet (graphVertexList (grDeps rg))).contains v = false
      ∧ ∃ n' r', (n', r') ∈ rg ∧ v ∈ r'.dependencies := by
  have hn' : ((grDeps rg).map Prod.fst).Nodup := by rw [grDeps_names]; exact hn
  have hnd' : ∀ p ∈ grDeps rg, (p.2 : List String).Nodup := by
    intro p hp
    obtain ⟨q, hq, hEq⟩ := List.mem_map.mp hp
    rw [← hEq]
    exact hnd q hq
  have he : (graphEdgeList (grDeps rg)).Nodup := graphEdgeList_nodup _ hn' hnd'
  have hedge : (d, vertexName n) ∈ graphEdgeList (grDeps rg) :=
    mem_graphEdgeList _ n r.dependencies d
      (List.mem_map.mpr ⟨(n, r), hmem, rfl⟩) hd
  have hdnotmem : d ∉ stringSet (graphVertexList (grDeps rg)) := by
    intro hc
    rw [mem_stringSet] at hc
    obtain ⟨p, _, hEq⟩ := List.mem_map.mp hc
    exact hbad p.1 hEq.symm
  have hdcont : (stringSet (graphVertexList (grDeps rg))).contains d = false :=
    contains_eq_false_of_not_mem _ _ hdnotmem
  have hpred : (fun e => !((stringSet (graphVertexList (grDeps rg))).contains e.1 &&
      (stringSet (graphVertexList (grDeps rg))).contains e.2)) (d, vertexName n) = true := by
    simp only [hdcont, Bool.false_and, Bool.not_false]
  have hsome : ((graphEdgeList (grDeps rg)).find? (fun e =>
      !((stringSet (graphVertexList (grDeps rg))).contains e.1 &&
        (stringSet (graphVertexList (grDeps rg))).contains e.2))).isSome := by
    rw [List.find?_isSome]
    exact ⟨(d, vertexName n), hedge, hpred⟩
  obtain ⟨e, hfind⟩ := Option.isSome_iff_exists.mp hsome
  have hpe := List.find?_some hfind
  have heMem := List.mem_of_find?_eq_some hfind
  have he2 : (stringSet (graphVertexList (grDeps rg))).contains e.2 = true :=
    contains_eq_true_of_mem _ _ (edge_snd_mem_verts _ _ heMem)
  have he1 : (stringSet (graphVertexList (grDeps rg))).contains e.1 = false := by
    cases hval : (stringSet (graphVertexList (grDeps rg))).contains e.1
    · rfl
    · rw [hval, he2] at hpe
      simp at hpe
  refine ⟨e.1, ?_, he1, ?_⟩
  · simp only [Graph, graphOf]
    rw [if_pos hn', if_pos he]
    simp only [hfind, he1]
    rfl
  · obtain ⟨p, hp, hdep⟩ := edge_fst_dep _ _ heMem
    obtain ⟨q, hq, hEq⟩ := List.mem_map.mp hp
    refine ⟨q.1, q.2, by simpa using hq, ?_⟩
    rw [← hEq] at hdep
    exact hdep

theorem newResourceProperties_deps (fields : List (String × Json))
    (rp : ResourceProperties) (h : newResourceProperties fields = .ok rp) :
    ∃ ds, rp.dependencies = stringSet ds := by
  simp only [newResourceProperties] at h
  cases htf : readTopFields fields with
  | error e => rw [htf] at h; exact Except.noConfusion h
  | ok pr =>
    obtain ⟨props, ds⟩ := pr
    rw [htf] at h
    injection h with h
    exact ⟨ds, by rw [← h]⟩

/-- A successful `parseGroup` keeps resource names duplicate-free and every
registered dependency list duplicate-free (dependency lists come from
string sets). -/
theorem parseGroup_nodup (refNames : List String) :
    ∀ (specs : List SpecResource) (acc rg : ResourceGroupM),
      parseGroup refNames specs acc = .ok rg →
      (acc.map Prod.fst).Nodup → (∀ p ∈ acc, p.2.dependencies.Nodup) →
      (rg.map Prod.fst).Nodup ∧ (∀ p ∈ rg, p.2.dependencies.Nodup) := by
  intro specs
  induction specs with
  | nil =>
    intro acc rg hok hn hd
    injection hok with h
    subst h
    exact ⟨hn, hd⟩
  | cons r rest ih =>
    intro acc rg hok hn hd
    simp only [parseGroup] at hok
    by_cases hc : refNames.contains r.resourceRef = true
    · rw [if_pos hc] at hok
      cases hnr : newResource acc r.name r.resourceRef r.properties with
      | error e => rw [hnr] at hok; exact Except.noConfusion hok
      | ok acc' =>
        rw [hnr] at hok
        simp only [newResource] at hnr
        cases hl : lookupA acc r.name with
        | some v =>
          rw [hl] at hnr
          simp at hnr
        | none =>
          rw [hl] at hnr
          simp only [Option.isSome_none, Bool.false_eq_true, if_false] at hnr
          have hfresh : r.name ∉ acc.map Prod.fst := (lookupA_eq_none_iff acc r.name).mp hl
          have happend : ∀ entry : GroupResource, acc' = acc ++ [(r.name, entry)] →
              entry.dependencies.Nodup →
              (rg.map Prod.fst).Nodup ∧ ∀ p ∈ rg, p.2.dependencies.Nodup := by
            intro entry hEq hdep
            subst hEq
            refine ih _ _ hok ?_ ?_
            · rw [List.map_append]
              rw [List.nodup_append]
              refine ⟨hn, by simp, ?_⟩
              intro x hx hx'
              simp only [List.map_cons, List.map_nil, List.mem_singleton] at hx'
              subst hx'
              exact hfresh hx
            · intro p hp
              rcases List.mem_append.mp hp with hp | hp
              · exact hd p hp
              · simp only [List.mem_singleton] at hp
                subst hp
                exact hdep
          cases hprops : r.properties with
          | none =>
            simp only [hprops] at hnr
            injection hnr with hnr
            exact happend _ (by rw [← hnr, upsert_of_lookup_none _ _ _ hl]) (by simp)
          | some pj =>
            cases pj with
            | null =>
              simp only [hprops] at hnr
              injection hnr with hnr
              exact happend _ (by rw [← hnr, upsert_of_lookup_none _ _ _ hl])
                (nodup_stringSet [])
            | obj fields =>
              simp only [hprops] at hnr
              cases hrp : newResourceProperties fields with
              | error e => simp only [hrp] at hnr; exact Except.noConfusion hnr
              | ok rp =>
                simp only [hrp] at hnr
                injection hnr with hnr
                obtain ⟨ds, hds⟩ := newResourceProperties_deps fields rp hrp
                exact happend _ (by rw [← hnr, upsert_of_lookup_none _ _ _ hl])
                  (by rw [hds]; exact nodup_stringSet ds)
            | bool b => simp only [hprops] at hnr; exact Except.noConfusion hnr
            | num n => simp only [hprops] at hnr; exact Except.noConfusion hnr
            | str s => simp only [hprops] at hnr; exact Except.noConfusion hnr
            | arr elems => simp only [hprops] at hnr; exact Except.noConfusion hnr
    · rw [if_neg hc] at hok
      exact Except.noConfusion hok

/-- A successful `parseGroup` preserves already-registered resources. -/
theorem parseGroup_preserves (refNames : List String) :
    ∀ (specs : List SpecResource) (acc rg : ResourceGroupM) (k : String)
      (v : GroupResource),
      parseGroup refNames specs acc = .ok rg → lookupA acc k = some v →
      lookupA rg k = some v := by
  intro specs
  induction specs with
  | nil =>
    intro acc rg k v hok hl
    injection hok with h
    subst h
    exact hl
  | cons r rest ih =>
    intro acc rg k v hok hl
    simp only [parseGroup] at hok
    by_cases hc : refNames.contains r.resourceRef = true
    · rw [if_pos hc] at hok
      cases hnr : newResource acc r.name r.resourceRef r.properties with
      | error e => rw [hnr] at hok; exact Except.noConfusion hok
      | ok acc' =>
        rw [hnr] at hok
        simp only [newResource] at hnr
        by_cases hk : r.name = k
        · subst hk
          rw [hl] at hnr
          simp at hnr
        · cases hlname : lookupA acc r.name with
          | some v' =>
            rw [hlname] at hnr
            simp at hnr
          | none =>
            rw [hlname] at hnr
            simp only [Option.isSome_none, Bool.false_eq_true, if_false] at hnr
            have hpres : ∀ entry : GroupResource,
                acc' = upsert acc r.name entry → lookupA acc' k = some v := by
              intro entry hEq
              subst hEq
              rw [lookupA_upsert_other _ _ _ _ hk]
              exact hl
            cases hprops : r.properties with
            | none =>
              simp only [hprops] at hnr
              injection hnr with hnr
              exact ih _ _ _ _ hok (hpres _ hnr.symm)
            | some pj =>
              cases pj with
              | null =>
                simp only [hprops] at hnr
                injection hnr with hnr
                exact ih _ _ _ _ hok (hpres _ hnr.symm)
              | obj fields =>
                simp only [hprops] at hnr
                cases hrp : newResourceProperties fields with
                | error e => simp only [hrp] at hnr; exact Except.noConfusion hnr
                | ok rp =>
                  simp only [hrp] at hnr
                  injection hnr with hnr
                  exact ih _ _ _ _ hok (hpres _ hnr.symm)
              | bool b => simp only [hprops] at hnr; exact Except.noConfusion hnr
              | num n => simp only [hprops] at hnr; exact Except.noConfusion hnr
              | str s => simp only [hprops] at hnr; exact Except.noConfusion hnr
              | arr elems => simp only [hprops] at hnr; exact Except.noConfusion hnr
    · rw [if_neg hc] at hok
      exact Except.noConfusion hok

/-- Every spec resource with JSON-object properties ends up registered with
the dependency set computed by `newResourceProperties`. -/
theorem parseGroup_creates (refNames : List String) :
    ∀ (specs : List SpecResource) (acc rg : ResourceGroupM),
      parseGroup refNames specs acc = .ok rg →
      ∀ spec ∈ specs, ∀ fields, spec.properties = some (.obj fields) →
        ∃ rp, newResourceProperties fields = .ok rp ∧
          lookupA rg spec.name = some ⟨spec.name, spec.resourceRef, rp, rp.dependencies⟩ := by
  intro specs
  induction specs with
  | nil =>
    intro acc rg _ spec hspec
    simp at hspec
  | cons r rest ih =>
    intro acc rg hok spec hspec fields hfields
    simp only [parseGroup] at hok
    by_cases hc : refNames.contains r.resourceRef = true
    · rw [if_pos hc] at hok
      cases hnr : newResource acc r.name r.resourceRef r.properties with
      | error e => rw [hnr] at hok; exact Except.noConfusion hok
      | ok acc' =>
        rw [hnr] at hok
        rcases List.mem_cons.mp hspec with hsp | hsp
        · subst hsp
          simp only [newResource] at hnr
          cases hlname : lookupA acc spec.name with
          | some v' =>
            rw [hlname] at hnr
            simp at hnr
          | none =>
            rw [hlname] at hnr
            simp only [Option.isSome_none, Bool.false_eq_true, if_false] at hnr
            simp only [hfields] at hnr
            cases hrp : newResourceProperties fields with
            | error e => simp only [hrp] at hnr; exact Except.noConfusion hnr
            | ok rp =>
              simp only [hrp] at hnr
              injection hnr with hnr
              refine ⟨rp, rfl, ?_⟩
              refine parseGroup_preserves refNames rest acc' rg spec.name _ hok ?_
              rw [← hnr]
              exact lookupA_upsert_self _ _ _
        · exact ih _ _ hok spec hsp fields hfields
    · rw [if_neg hc] at hok
      exact Except.noConfusion hok

theorem dropWhile_head_false {α : Type} (p : α → Bool) :
    ∀ (l : List α) (c : α) (cs : List α), l.dropWhile p = c :: cs → p c = false := by
  intro l
  induction l with
  | nil => intro c cs h; exact List.noConfusion h
  | cons a as ih =>
    intro c cs h
    rw [List.dropWhile_cons] at h
    split at h
    · exact ih c cs h
    · next hpa =>
      injection h with h1 _
      subst h1
      cases hval : p a
      · rfl
      · exact absurd hval hpa

theorem matchRootAt_sound (pfx l g : List Char) (h : matchRootAt pfx l = some g) :
    (∃ run, g = pfx ++ run ∧ run ≠ []) ∧ (g ++ [dotChar]).IsPrefix l := by
  simp only [matchRootAt] at h
  by_cases hpre : pfx.isPrefixOf l = true
  · rw [if_pos hpre] at h
    by_cases hrun : ((l.drop pfx.length).takeWhile (fun c => c ≠ dotChar)).isEmpty = true
    · rw [if_pos hrun] at h
      exact Option.noConfusion h
    · rw [if_neg hrun] at h
      cases hdw : (l.drop pfx.length).dropWhile (fun c => c ≠ dotChar) with
      | nil =>
        simp only [hdw] at h
        exact Option.noConfusion h
      | cons c cs =>
        simp only [hdw] at h
        injection h with h
        have hrunne : (l.drop pfx.length).takeWhile (fun c => c ≠ dotChar) ≠ [] := by
          intro h0
          rw [h0] at hrun
          exact hrun rfl
        refine ⟨⟨_, h.symm, hrunne⟩, ?_⟩
        obtain ⟨t, ht⟩ := List.isPrefixOf_iff_prefix.mp hpre
        have hdrop : l.drop pfx.length = t := by
          rw [← ht]
          exact List.drop_left pfx t
        have hc : c = dotChar := by
          have := dropWhile_head_false (fun c => c ≠ dotChar) _ c cs hdw
          simpa using this
        have hsplit : t = ((l.drop pfx.length).takeWhile (fun c => c ≠ dotChar))
            ++ (c :: cs) := by
          rw [← hdrop, ← hdw]
          exact (List.takeWhile_append_dropWhile _ _).symm
        refine ⟨cs, ?_⟩
        rw [← ht, hsplit, ← h, hc]
        simp
  · rw [if_neg hpre] at h
    exact Option.noConfusion h

theorem findRoot_sound (pfx : List Char) :
    ∀ (l g : List Char), findRoot pfx l = some g →
      (∃ run, g = pfx ++ run ∧ run ≠ []) ∧ (g ++ [dotChar]).IsInfix l := by
  intro l
  induction l with
  | nil => intro g h; exact Option.noConfusion h
  | cons c cs ih =>
    intro g h
    simp only [findRoot] at h
    cases hm : matchRootAt pfx (c :: cs) with
    | some g' =>
      simp only [hm] at h
      injection h with h
      obtain ⟨hrun, hpre⟩ := matchRootAt_sound pfx (c :: cs) g (h ▸ hm)
      exact ⟨hrun, hpre.isInfix⟩
    | none =>
      simp only [hm] at h
      obtain ⟨hrun, hinf⟩ := ih g h
      exact ⟨hrun, List.infix_cons hinf⟩

theorem Parse_composite_inv (s src : String) (subs : List String)
    (h : Parse (.str s) = .ok (.composite src subs)) :
    src = s ∧ subs = searchExpressions s ∧ subs ≠ [] := by
  simp only [Parse] at h
  by_cases h1 : (searchExpressions s).isEmpty = true
  · rw [if_pos h1] at h
    injection h with h2
    exact Expression.noConfusion h2
  · rw [if_neg h1] at h
    by_cases h2 : ((searchExpressions s).length = 1 && startToken.data.isPrefixOf s.data) = true
    · rw [if_pos h2] at h
      simp only [newExprExpression] at h
      cases hse : searchExpressions s with
      | nil =>
        simp only [hse] at h
        exact Except.noConfusion h
      | cons e es =>
        simp only [hse] at h
        injection h with h3
        exact Expression.noConfusion h3
    · rw [if_neg h2] at h
      injection h with h3
      injection h3 with h4 h5
      refine ⟨h4.symm, h5.symm, ?_⟩
      rw [h5.symm]
      intro h0
      rw [h0] at h1
      exact h1 rfl

theorem readObjectFields_child (name : String) :
    ∀ (fields : List (String × Json)) (props : List (String × ResourceProperty))
      (ds : List String) (k : String) (v : Json),
      readObjectFields name fields = .ok (props, ds) → (k, v) ∈ fields →
      ∃ nm pc, readProperty nm v = .ok pc ∧ ∀ x ∈ pc.Dependencies, x ∈ ds := by
  intro fields
  induction fields with
  | nil =>
    intro _ _ _ _ hok hkv
    simp at hkv
  | cons f rest ih =>
    obtain ⟨k0, v0⟩ := f
    intro props ds k v hok hkv
    simp only [readObjectFields] at hok
    cases hp : readProperty (name ++ "." ++ k0) v0 with
    | error e => simp only [hp] at hok; exact Except.noConfusion hok
    | ok p =>
      simp only [hp] at hok
      cases hrest : readObjectFields name rest with
      | error e => simp only [hrest] at hok; exact Except.noConfusion hok
      | ok pr =>
        obtain ⟨ps, ds'⟩ := pr
        simp only [hrest] at hok
        injection hok with hok
        injection hok with hok1 hok2
        rcases List.mem_cons.mp hkv with hkv | hkv
        · injection hkv with hk hv
          subst hv
          refine ⟨name ++ "." ++ k0, p, hp, ?_⟩
          intro x hx
          rw [← hok2]
          exact List.mem_append_left _ hx
        · obtain ⟨nm, pc, hpc, hsub⟩ := ih ps ds' k v hrest hkv
          refine ⟨nm, pc, hpc, ?_⟩
          intro x hx
          rw [← hok2]
          exact List.mem_append_right _ (hsub x hx)

theorem readArrayElems_child (name : String) :
    ∀ (elems : List Json) (i : Nat) (props : List ResourceProperty)
      (ds : List String) (v : Json),
      readArrayElems name i elems = .ok (props, ds) → v ∈ elems →
      ∃ nm pc, readProperty nm v = .ok pc ∧ ∀ x ∈ pc.Dependencies, x ∈ ds := by
  intro elems
  induction elems with
  | nil =>
    intro _ _ _ _ hok hv
    simp at hv
  | cons v0 rest ih =>
    intro i props ds v hok hv
    simp only [readArrayElems] at hok
    cases hp : readProperty (name ++ "[" ++ toString i ++ "]") v0 with
    | error e => simp only [hp] at hok; exact Except.noConfusion hok
    | ok p =>
      simp only [hp] at hok
      cases hrest : readArrayElems name (i + 1) rest with
      | error e => simp only [hrest] at hok; exact Except.noConfusion hok
      | ok pr =>
        obtain ⟨ps, ds'⟩ := pr
        simp only [hrest] at hok
        injection hok with hok
        injection hok with hok1 hok2
        rcases List.mem_cons.mp hv with hv | hv
        · subst hv
          refine ⟨name ++ "[" ++ toString i ++ "]", p, hp, ?_⟩
          intro x hx
          rw [← hok2]
          exact List.mem_append_left _ hx
        · obtain ⟨nm, pc, hpc, hsub⟩ := ih (i + 1) ps ds' v hrest hv
          refine ⟨nm, pc, hpc, ?_⟩
          intro x hx
          rw [← hok2]
          exact List.mem_append_right _ (hsub x hx)

theorem readTopFields_child :
    ∀ (fields : List (String × Json)) (props : List (String × ResourceProperty))
      (ds : List String) (k : String) (v : Json),
      readTopFields fields = .ok (props, ds) → (k, v) ∈ fields →
      ∃ pc, readProperty k v = .ok pc ∧ ∀ x ∈ pc.Dependencies, x ∈ ds := by
  intro fields
  induction fields with
  | nil =>
    intro _ _ _ _ hok hkv
    simp at hkv
  | cons f rest ih =>
    obtain ⟨k0, v0⟩ := f
    intro props ds k v hok hkv
    simp only [readTopFields] at hok
    cases hp : readProperty k0 v0 with
    | error e => simp only [hp] at hok; exact Except.noConfusion hok
    | ok p =>
      simp only [hp] at hok
      cases hrest : readTopFields rest with
      | error e => simp only [hrest] at hok; exact Except.noConfusion hok
      | ok pr =>
        obtain ⟨ps, ds'⟩ := pr
        simp only [hrest] at hok
        injection hok with hok
        injection hok with hok1 hok2
        rcases List.mem_cons.mp hkv with hkv | hkv
        · injection hkv with hk hv
          subst hv
          subst hk
          refine ⟨p, hp, ?_⟩
          intro x hx
          rw [← hok2]
          exact List.mem_append_left _ hx
        · obtain ⟨pc, hpc, hsub⟩ := ih ps ds' k v hrest hkv
          refine ⟨pc, hpc, ?_⟩
          intro x hx
          rw [← hok2]
          exact List.mem_append_right _ (hsub x hx)

/-- A JSON value that contains, at any depth, a scalar string parsing into
a `CompositeExpression`. -/
inductive HasComposite : Json → Prop where
  | str (s : String) (subs : List String)
      (h : Parse (.str s) = .ok (.composite s subs)) : HasComposite (.str s)
  | obj (k : String) (v : Json) (fields : List (String × Json))
      (hmem : (k, v) ∈ fields) (hv : HasComposite v) : HasComposite (.obj fields)
  | arr (v : Json) (elems : List Json)
      (hmem : v ∈ elems) (hv : HasComposite v) : HasComposite (.arr elems)

theorem hasComposite_empty_dep :
    ∀ (v : Json), HasComposite v → ∀ (name : String) (p : ResourceProperty),
      readProperty name v = .ok p → "" ∈ p.Dependencies := by
  intro v hc
  induction hc with
  | str s subs hp =>
    intro name p hr
    simp only [readProperty] at hr
    simp only [hp] at hr
    injection hr with hr
    rw [← hr]
    simp only [ResourceProperty.Dependencies, Expression.Dependencies]
    apply List.mem_append_left
    rw [List.mem_replicate]
    have hne := (Parse_composite_inv s s subs hp).2.2
    exact ⟨fun h0 => hne (List.length_eq_zero.mp h0), rfl⟩
  | obj k v fields hmem hv ih =>
    intro name p hr
    simp only [readProperty] at hr
    cases hro : readObjectFields name fields with
    | error e => simp only [hro] at hr; exact Except.noConfusion hr
    | ok pr =>
      obtain ⟨props, ds⟩ := pr
      simp only [hro] at hr
      injection hr with hr
      obtain ⟨nm, pc, hpc, hsub⟩ := readObjectFields_child name fields props ds k v hro hmem
      rw [← hr]
      simp only [ResourceProperty.Dependencies]
      exact hsub _ (ih nm pc hpc)
  | arr v elems hmem hv ih =>
    intro name p hr
    simp only [readProperty] at hr
    cases hra : readArrayElems name 0 elems with
    | error e => simp only [hra] at hr; exact Except.noConfusion hr
    | ok pr =>
      obtain ⟨props, ds⟩ := pr
      simp only [hra] at hr
      injection hr with hr
      obtain ⟨nm, pc, hpc, hsub⟩ := readArrayElems_child name elems 0 props ds v hra hmem
      rw [← hr]
      simp only [ResourceProperty.Dependencies]
      exact hsub _ (ih nm pc hpc)

theorem newResourceProperties_hasComposite (fields : List (String × Json))
    (rp : ResourceProperties) (k : String) (v : Json)
    (h : newResourceProperties fields = .ok rp) (hkv : (k, v) ∈ fields)
    (hc : HasComposite v) : "" ∈ rp.dependencies := by
  simp only [newResourceProperties] at h
  cases htf : readTopFields fields with
  | error e => simp only [htf] at h; exact Except.noConfusion h
  | ok pr =>
    obtain ⟨props, ds⟩ := pr
    simp only [htf] at h
    injection h with h
    obtain ⟨pc, hpc, hsub⟩ := readTopFields_child fields props ds k v htf hkv
    have hin := hasComposite_empty_dep v hc k pc hpc
    rw [← h]
    show "" ∈ stringSet ds
    rw [mem_stringSet]
    exact hsub _ hin

theorem evalArrayProps_ok {σ : Type} (ev : String → σ → Except String Value) (scope : σ) :
    ∀ (ps : List ResourceProperty) (acc out : List Value),
      evalArrayProps ev scope ps acc = .ok out →
      ∃ vs, out = acc ++ vs ∧
        List.Forall₂ (fun p v => evalProperty ev scope p = .ok v) ps vs := by
  intro ps
  induction ps with
  | nil =>
    intro acc out h
    injection h with h
    exact ⟨[], by simp [← h], List.Forall₂.nil⟩
  | cons p rest ih =>
    intro acc out h
    simp only [evalArrayProps] at h
    cases hp : evalProperty ev scope p with
    | error e => simp only [hp] at h; exact Except.noConfusion h
    | ok v =>
      simp only [hp] at h
      obtain ⟨vs, hout, hfa⟩ := ih (acc ++ [v]) out h
      exact ⟨v :: vs, by simp [hout], List.Forall₂.cons hp hfa⟩

/-- When the dependency graph construction fails, the Planner reconcile
returns the error having touched nothing beyond the first-observation
seeding: the store is unchanged and the status stays at the seeded phase
and conditions (part_004 lines 121-126 return before the driver loop). -/
theorem planner_error_of_graph_error (ev : String → PlannerScope → Except String Value)
    (refNames : List String) (dep : DeploymentIn) (store : RStore)
    (rg : ResourceGroupM) (e : GraphError)
    (hpg : parseGroup refNames dep.resources [] = .ok rg)
    (hg : Graph rg = .error e) :
    plannerReconcile ev refNames dep store =
      ⟨.error, store,
        if dep.hasConditions then dep.phase else DeploymentInProgressPhase,
        if dep.hasConditions then []
        else [(ConditionTypeInitializing, ConditionReasonReconciling)]⟩ := by
  obtain ⟨nm, hcond, ph, rs⟩ := dep
  simp only at hpg
  cases hcond <;> simp [plannerReconcile, hpg, hg]

theorem fanoutLoop_know (g : GroupIn) :
    ∀ (ps : List String) (st : DStore) (kn : List (String × String)),
      (fanoutLoop g ps st kn).2.map Prod.fst
        = kn.map Prod.fst ++ ps.map (fun p => g.name ++ "." ++ p) := by
  intro ps
  induction ps with
  | nil => intro st kn; simp [fanoutLoop]
  | cons p rest ih =>
    intro st kn
    simp only [fanoutLoop]
    cases lookupA st (g.name ++ "." ++ p) with
    | none => rw [ih]; simp
    | some old => rw [ih]; simp

theorem fanoutLoop_lookup_other (g : GroupIn) :
    ∀ (ps : List String) (st : DStore) (kn : List (String × String)) (k : String),
      (∀ p ∈ ps, g.name ++ "." ++ p ≠ k) →
      lookupA (fanoutLoop g ps st kn).1 k = lookupA st k := by
  intro ps
  induction ps with
  | nil => intro st kn k _; rfl
  | cons p rest ih =>
    intro st kn k hne
    simp only [fanoutLoop]
    cases lookupA st (g.name ++ "." ++ p) with
    | none =>
      rw [ih _ _ _ (fun q hq => hne q (List.mem_cons_of_mem _ hq))]
      exact lookupA_upsert_other _ _ _ _ (hne p (List.mem_cons_self _ _))
    | some old =>
      rw [ih _ _ _ (fun q hq => hne q (List.mem_cons_of_mem _ hq))]
      exact lookupA_upsert_other _ _ _ _ (hne p (List.mem_cons_self _ _))

theorem fanoutLoop_creates (g : GroupIn) :
    ∀ (ps : List String) (st : DStore) (kn : List (String × String)),
      ps.Nodup → ∀ p ∈ ps, ∃ dobj : DObj,
        lookupA (fanoutLoop g ps st kn).1 (g.name ++ "." ++ p) = some dobj
        ∧ dobj.placement = p ∧ dobj.resourcesSpec = g.resources := by
  intro ps
  induction ps with
  | nil => intro st kn _ p hp; simp at hp
  | cons p0 rest ih =>
    intro st kn hnd p hp
    have hnd' := List.nodup_cons.mp hnd
    have hother : p = p0 → ∀ q ∈ rest, g.name ++ "." ++ q ≠ g.name ++ "." ++ p0 := by
      intro _ q hq hEq
      exact hnd'.1 (strAppend_cancel_left _ _ _ hEq ▸ hq)
    rcases List.mem_cons.mp hp with hp0 | hpr
    · subst hp0
      simp only [fanoutLoop]
      cases hl : lookupA st (g.name ++ "." ++ p) with
      | none =>
        refine ⟨⟨p, g.resources, ""⟩, ?_, rfl, rfl⟩
        rw [fanoutLoop_lookup_other g rest _ _ _ (hother rfl)]
        exact lookupA_upsert_self _ _ _
      | some old =>
        refine ⟨⟨p, g.resources, old.phase⟩, ?_, rfl, rfl⟩
        rw [fanoutLoop_lookup_other g rest _ _ _ (hother rfl)]
        exact lookupA_upsert_self _ _ _
    · simp only [fanoutLoop]
      cases hl : lookupA st (g.name ++ "." ++ p0) with
      | none => exact ih _ _ hnd'.2 p hpr
      | some old => exact ih _ _ hnd'.2 p hpr

/-- `flatMap` over a permutation of the outer list yields a permutation. -/
theorem perm_flatMap {α β : Type} (f : α → List β) (l l' : List α)
    (h : List.Perm l l') : List.Perm (l.flatMap f) (l'.flatMap f) := by
  induction h with
  | nil => simp
  | cons x _ ih =>
    simp only [List.flatMap_cons]
    exact ih.append_left _
  | swap x y l =>
    simp only [List.flatMap_cons, ← List.append_assoc]
    exact (List.perm_append_comm).append_right _
  | trans _ _ ih1 ih2 => exact ih1.trans ih2

/-- A transitive dependency path ends with an edge into its target. -/
theorem dependsOn_last_edge (gr : List (String × List String)) (x y : String)
    (h : DependsOn gr x y) : ∃ z, (z, y) ∈ graphEdgeList gr := by
  induction h with
  | single h => exact ⟨_, h⟩
  | tail _ h _ => exact ⟨_, h⟩

/-- A transitive dependency path starts with an edge out of its source. -/
theorem dependsOn_first_edge (gr : List (String × List String)) (x y : String)
    (h : DependsOn gr x y) : ∃ z, (x, z) ∈ graphEdgeList gr := by
  induction h with
  | single h => exact ⟨_, h⟩
  | tail _ _ ih => exact ih

/-- The built vertex list is duplicate-free whenever the names are. -/
theorem graphVertexList_nodup (gr : List (String × List String))
    (hn : (gr.map Prod.fst).Nodup) : (graphVertexList gr).Nodup := by
  have hEq : graphVertexList gr = (gr.map Prod.fst).map vertexName := by
    rw [List.map_map]
    rfl
  rw [hEq]
  exact hn.map (fun a b h => vertexName_inj a b h)

/-! ### The claims -/

/-- C1 (refuting the claimed behaviour; the code contradicts the spec's
driver-loop rule).  The spec says: when the Planner reaches a resource whose
Resource object exists with status phase `Deploying`, the reconcile returns
with a short requeue delay and does not create anything later in the order —
in a chain `b` depends on `a`, `b` is not created until `a` is `Done`.  The
code (part_004 line 239) compares the Resource status phase against
`DeploymentInProgressPhase` (`"DeploymentInProgress"`), a deployment phase
constant that never equals any Resource phase (`"Deploying"`, `"Failed"`,
`"Done"`), so the check never fires.  At the failing input — deployment
`g.p` over resources `a` (object exists, phase `Deploying`) and `b` (depends
on `resources.a`, object absent) — the reconcile walks past `a` and creates
`b` even though `a` is still `Deploying`. -/
theorem claim_C1 :
    lookupA [("g.p.a",
        (⟨ResourceDeployingStatusPhase, .obj [("k", .str "v")], none⟩ : RObj))]
        "g.p.b" = none
    ∧ ResourceDeployingStatusPhase ≠ ResourceDoneStatusPhase
    ∧ (plannerReconcile (fun _ _ => .ok (.str "out")) ["refx"]
        ⟨"g.p", true, DeploymentInProgressPhase,
          [⟨"a", "refx", some (.obj [("k", .str "v")])⟩,
           ⟨"b", "refx", some (.obj [("n", .str "$\x7bresources.a.id\x7d")])⟩]⟩
        [("g.p.a", ⟨ResourceDeployingStatusPhase, .obj [("k", .str "v")], none⟩)]).outcome
      = .requeue5
    ∧ lookupA (plannerReconcile (fun _ _ => .ok (.str "out")) ["refx"]
        ⟨"g.p", true, DeploymentInProgressPhase,
          [⟨"a", "refx", some (.obj [("k", .str "v")])⟩,
           ⟨"b", "refx", some (.obj [("n", .str "$\x7bresources.a.id\x7d")])⟩]⟩
        [("g.p.a", ⟨ResourceDeployingStatusPhase, .obj [("k", .str "v")], none⟩)]).store
        "g.p.b" = some ⟨"", .obj [("n", .str "out")], none⟩
    ∧ lookupA (plannerReconcile (fun _ _ => .ok (.str "out")) ["refx"]
        ⟨"g.p", true, DeploymentInProgressPhase,
          [⟨"a", "refx", some (.obj [("k", .str "v")])⟩,
           ⟨"b", "refx", some (.obj [("n", .str "$\x7bresources.a.id\x7d")])⟩]⟩
        [("g.p.a", ⟨ResourceDeployingStatusPhase, .obj [("k", .str "v")], none⟩)]).store
        "g.p.a" = some ⟨ResourceDeployingStatusPhase, .obj [("k", .str "v")], none⟩ :=
  ⟨rfl, by decide, rfl, rfl, rfl⟩

/-- C2 (refuting the claimed aggregation; the code contradicts the spec's
aggregate rule).  The spec says the deployment phase is `Failed` when any
driven Resource is `Failed`, and `Done` only when all are `Done` — it can
never finish `Done` with a `Failed` resource.  The aggregation (part_004
lines 255-268) compares each Resource status phase against
`DeploymentFailedPhase`/`DeploymentInProgressPhase`
(`"DeploymentFailed"`/`"DeploymentInProgress"`), which never equal the
Resource phases `"Failed"`/`"Deploying"`, so the loop never switches away
from `DeploymentDonePhase`.  At the failing input — `a` `Failed`, `b`
`Done` — the reconcile finishes with phase `DeploymentDone` and no
requeue. -/
theorem claim_C2 :
    lookupA (plannerReconcile (fun _ _ => .ok (.str "out")) ["refx"]
        ⟨"g.p", true, DeploymentInProgressPhase,
          [⟨"a", "refx", some (.obj [("k", .str "v")])⟩,
           ⟨"b", "refx", some (.obj [("n", .str "$\x7bresources.a.id\x7d")])⟩]⟩
        [("g.p.a", ⟨ResourceFailedStatusPhase, .obj [("k", .str "v")], none⟩),
         ("g.p.b", ⟨ResourceDoneStatusPhase, .obj [("n", .str "out")], none⟩)]).store
        "g.p.a" = some ⟨ResourceFailedStatusPhase, .obj [("k", .str "v")], none⟩
    ∧ (plannerReconcile (fun _ _ => .ok (.str "out")) ["refx"]
        ⟨"g.p", true, DeploymentInProgressPhase,
          [⟨"a", "refx", some (.obj [("k", .str "v")])⟩,
           ⟨"b", "refx", some (.obj [("n", .str "$\x7bresources.a.id\x7d")])⟩]⟩
        [("g.p.a", ⟨ResourceFailedStatusPhase, .obj [("k", .str "v")], none⟩),
         ("g.p.b", ⟨ResourceDoneStatusPhase, .obj [("n", .str "out")], none⟩)]).phase
      = DeploymentDonePhase
    ∧ (plannerReconcile (fun _ _ => .ok (.str "out")) ["refx"]
        ⟨"g.p", true, DeploymentInProgressPhase,
          [⟨"a", "refx", some (.obj [("k", .str "v")])⟩,
           ⟨"b", "refx", some (.obj [("n", .str "$\x7bresources.a.id\x7d")])⟩]⟩
        [("g.p.a", ⟨ResourceFailedStatusPhase, .obj [("k", .str "v")], none⟩),
         ("g.p.b", ⟨ResourceDoneStatusPhase, .obj [("n", .str "out")], none⟩)]).outcome
      = .done
    ∧ DeploymentDonePhase ≠ DeploymentFailedPhase :=
  ⟨rfl, rfl, rfl, by decide⟩

/-- C6: a literal scalar — a string in which `SearchExpressions` finds no
`${...}` token — that moreover does not start with `${` parses into a
`SimpleExpression`, and evaluating it (under any evaluator and any scope,
in particular the empty one) returns the string unchanged. -/
theorem claim_C6 (s : String)
    (h1 : searchExpressions s = [])
    (h2 : startToken.data.isPrefixOf s.data = false) :
    Parse (.str s) = .ok (.simple s)
    ∧ ∀ (σ : Type) (ev : String → σ → Except String Value) (scope : σ),
        Expression.Evaluate ev scope (.simple s) = .ok (.str s) := by
  refine ⟨?_, fun σ ev scope => rfl⟩
  simp [Parse, h1]

theorem claim_C6_witness :
    Parse (.str "hello") = .ok (.simple "hello")
    ∧ ∀ (σ : Type) (ev : String → σ → Except String Value) (scope : σ),
        Expression.Evaluate ev scope (.simple "hello") = .ok (.str "hello") :=
  claim_C6 "hello" rfl rfl

/-- C10: evaluating an `ArrayResourceProperty` with `n` elements succeeds
with a slice of length `2n`: the slice is pre-allocated as
`make([]any, n)` — `n` nils — and the `n` evaluated elements are appended
in order (part_006 lines 175-185). -/
theorem claim_C10 {σ : Type} (ev : String → σ → Except String Value) (scope : σ)
    (name : String) (ps : List ResourceProperty) (deps : List String)
    (elems : List Value)
    (h : evalProperty ev scope (.arr name ps deps) = .ok (.arr elems)) :
    ∃ vs, elems = List.replicate ps.length Value.null ++ vs
      ∧ List.Forall₂ (fun p v => evalProperty ev scope p = .ok v) ps vs
      ∧ elems.length = 2 * ps.length
      ∧ elems.take ps.length = List.replicate ps.length Value.null := by
  simp only [evalProperty] at h
  cases hr : evalArrayProps ev scope ps (List.replicate ps.length Value.null) with
  | error e =>
    simp only [hr] at h
    exact Except.noConfusion h
  | ok out =>
    simp only [hr] at h
    injection h with h
    injection h with h
    obtain ⟨vs, hout, hfa⟩ := evalArrayProps_ok ev scope ps _ out hr
    have hlen : vs.length = ps.length := hfa.length_eq.symm
    refine ⟨vs, by rw [← h, hout], hfa, ?_, ?_⟩
    · rw [← h, hout]
      simp [hlen]
      omega
    · rw [← h, hout]
      have := List.take_left (List.replicate ps.length Value.null) vs
      simpa using this

theorem claim_C10_witness :
    ∃ vs, [Value.null, Value.null, Value.str "x", Value.str "y"]
        = List.replicate (List.length [ResourceProperty.expr "a[0]" (.simple "x") [],
            ResourceProperty.expr "a[1]" (.simple "y") []]) Value.null ++ vs
      ∧ List.Forall₂
          (fun p v => evalProperty (σ := Unit) (fun _ _ => .ok (.str "z")) () p = .ok v)
          [ResourceProperty.expr "a[0]" (.simple "x") [],
           ResourceProperty.expr "a[1]" (.simple "y") []] vs
      ∧ (4 : Nat) = 2 * List.length [ResourceProperty.expr "a[0]" (.simple "x") [],
            ResourceProperty.expr "a[1]" (.simple "y") []]
      ∧ List.take (List.length [ResourceProperty.expr "a[0]" (.simple "x") [],
            ResourceProperty.expr "a[1]" (.simple "y") []])
          [Value.null, Value.null, Value.str "x", Value.str "y"]
        = List.replicate (List.length [ResourceProperty.expr "a[0]" (.simple "x") [],
            ResourceProperty.expr "a[1]" (.simple "y") []]) Value.null := by
  have := claim_C10 (σ := Unit) (fun _ _ => .ok (.str "z")) () "a"
    [.expr "a[0]" (.simple "x") [], .expr "a[1]" (.simple "y") []] []
    [Value.null, Value.null, Value.str "x", Value.str "y"] rfl
  exact this

/-- C4 counterexample (refuting the reported status; the code contradicts
the spec's cycle handling).  At the failing input — resources `a` and `b`
depending on each other, deployment observed for the first time — the graph
build does return a cycle error and no Resource object is created, but the
reconcile then merely returns the error: the deployment keeps the freshly
seeded `DeploymentInProgress` phase and `Initializing/Reconciling`
condition; no `Failed` phase and no `DependencyCycle` reason exist anywhere
(the string `DependencyCycle` occurs nowhere in the sources). -/
theorem claim_C4_counterexample :
    let res := plannerReconcile (fun _ _ => .ok (.str "out")) ["refx"]
      ⟨"g.p", false, "",
        [⟨"a", "refx", some (.obj [("x", .str "$\x7bresources.b.id\x7d")])⟩,
         ⟨"b", "refx", some (.obj [("y", .str "$\x7bresources.a.id\x7d")])⟩]⟩ []
    graphOf [("a", ["resources.b"]), ("b", ["resources.a"])] = .error .cycle
    ∧ res.outcome = .error
    ∧ res.store = []
    ∧ res.phase = DeploymentInProgressPhase
    ∧ res.conditions = [(ConditionTypeInitializing, ConditionReasonReconciling)]
    ∧ DeploymentInProgressPhase ≠ DeploymentFailedPhase
    ∧ ConditionReasonReconciling ≠ "DependencyCycle" :=
  ⟨rfl, rfl, rfl, rfl, rfl, by decide, by decide⟩

/-- C4 (amended): when the dependency graph of the parsed resources fails to
build — in particular when the declared dependencies close a cycle — the
Planner reconcile returns the error without creating or touching any
Resource object, and the deployment status keeps the first-observation
seeding (`DeploymentInProgress` phase, `Initializing/Reconciling`
condition); contrary to the original claim, no `Failed` phase and no
`DependencyCycle` condition reason is ever reported. -/
theorem claim_C4 (ev : String → PlannerScope → Except String Value)
    (refNames : List String) (dep : DeploymentIn) (store : RStore)
    (rg : ResourceGroupM)
    (hpg : parseGroup refNames dep.resources [] = .ok rg)
    (hg : Graph rg = .error .cycle) :
    plannerReconcile ev refNames dep store =
      ⟨.error, store,
        if dep.hasConditions then dep.phase else DeploymentInProgressPhase,
        if dep.hasConditions then []
        else [(ConditionTypeInitializing, ConditionReasonReconciling)]⟩
    ∧ ∀ c ∈ (plannerReconcile ev refNames dep store).conditions,
        c.2 ≠ "DependencyCycle" := by
  have h := planner_error_of_graph_error ev refNames dep store rg .cycle hpg hg
  refine ⟨h, ?_⟩
  rw [h]
  intro c hc
  cases hcb : dep.hasConditions
  · rw [hcb] at hc
    simp at hc
    subst hc
    decide
  · rw [hcb] at hc
    simp at hc

theorem claim_C4_witness :
    plannerReconcile (fun _ _ => .ok (.str "out")) ["refx"]
      ⟨"gp", false, "",
        [⟨"a", "refx", some (.obj [("x", .str "$\x7bresources.b.id\x7d")])⟩,
         ⟨"b", "refx", some (.obj [("y", .str "$\x7bresources.a.id\x7d")])⟩]⟩ [] =
      ⟨.error, [], DeploymentInProgressPhase,
        [(ConditionTypeInitializing, ConditionReasonReconciling)]⟩
    ∧ ∀ c ∈ (plannerReconcile (fun _ _ => .ok (.str "out")) ["refx"]
        ⟨"gp", false, "",
          [⟨"a", "refx", some (.obj [("x", .str "$\x7bresources.b.id\x7d")])⟩,
           ⟨"b", "refx", some (.obj [("y", .str "$\x7bresources.a.id\x7d")])⟩]⟩
        []).conditions,
        c.2 ≠ "DependencyCycle" :=
  claim_C4 (fun _ _ => .ok (.str "out")) ["refx"]
    ⟨"gp", false, "",
      [⟨"a", "refx", some (.obj [("x", .str "$\x7bresources.b.id\x7d")])⟩,
       ⟨"b", "refx", some (.obj [("y", .str "$\x7bresources.a.id\x7d")])⟩]⟩ []
    [("a", ⟨"a", "refx",
        ⟨[("x", .expr "x" (.single "resources.b.id") ["resources.b"])],
          ["resources.b"]⟩, ["resources.b"]⟩),
     ("b", ⟨"b", "refx",
        ⟨[("y", .expr "y" (.single "resources.a.id") ["resources.a"])],
          ["resources.a"]⟩, ["resources.a"]⟩)]
    rfl rfl

/-- C8: a dependency extracted from a `refs.<name>` root is used verbatim as
the source vertex of a graph edge, but `Graph` only adds `resources.<name>`
vertices; so for any parsed group in which some resource carries a
`refs.`-prefixed dependency, `Graph` returns a vertex-not-found error, and
the Planner reconcile of any deployment over those resources returns the
error before any Resource object is created (the store is unchanged and the
status keeps the seeding). -/
theorem claim_C8 (refNames : List String) (specs : List SpecResource)
    (rg : ResourceGroupM) (n : String) (r : GroupResource) (d : String)
    (hpg : parseGroup refNames specs [] = .ok rg)
    (hmem : (n, r) ∈ rg) (hd : d ∈ r.dependencies)
    (hpfx : refsRootPrefix.isPrefixOf d.data = true) :
    (∃ v, Graph rg = .error (.vertexNotFound v))
    ∧ ∀ (ev : String → PlannerScope → Except String Value) (dep : DeploymentIn)
        (store : RStore), dep.resources = specs →
        plannerReconcile ev refNames dep store =
          ⟨.error, store,
            if dep.hasConditions then dep.phase else DeploymentInProgressPhase,
            if dep.hasConditions then []
            else [(ConditionTypeInitializing, ConditionReasonReconciling)]⟩ := by
  obtain ⟨hn, hnd⟩ := parseGroup_nodup refNames specs [] rg hpg (by simp)
    (by intro p hp; simp at hp)
  obtain ⟨v, hgraph, _, _⟩ := Graph_error_of_bad_dep rg n r d hn hnd hmem hd
    (refs_ne_vertexName d hpfx)
  refine ⟨⟨v, hgraph⟩, ?_⟩
  intro ev dep store hres
  exact planner_error_of_graph_error ev refNames dep store rg _
    (by rw [hres]; exact hpg) hgraph

theorem claim_C8_witness :
    (∃ v, Graph [("x", ⟨"x", "refx",
        ⟨[("greeting", .expr "greeting" (.single "refs.env.data.name") ["refs.env"])],
          ["refs.env"]⟩, ["refs.env"]⟩)] = .error (.vertexNotFound v))
    ∧ plannerReconcile (fun _ _ => .ok (.str "out")) ["refx"]
        ⟨"g", false, "",
          [⟨"x", "refx", some (.obj [("greeting", .str "$\x7brefs.env.data.name\x7d")])⟩]⟩
        [] =
      ⟨.error, [], DeploymentInProgressPhase,
        [(ConditionTypeInitializing, ConditionReasonReconciling)]⟩ := by
  have h := claim_C8 ["refx"]
    [⟨"x", "refx", some (.obj [("greeting", .str "$\x7brefs.env.data.name\x7d")])⟩]
    [("x", ⟨"x", "refx",
        ⟨[("greeting", .expr "greeting" (.single "refs.env.data.name") ["refs.env"])],
          ["refs.env"]⟩, ["refs.env"]⟩)]
    "x"
    ⟨"x", "refx",
      ⟨[("greeting", .expr "greeting" (.single "refs.env.data.name") ["refs.env"])],
        ["refs.env"]⟩, ["refs.env"]⟩
    "refs.env" rfl (List.mem_singleton.mpr rfl) (List.mem_singleton.mpr rfl) rfl
  exact ⟨h.1, h.2 (fun _ _ => .ok (.str "out"))
    ⟨"g", false, "",
      [⟨"x", "refx", some (.obj [("greeting", .str "$\x7brefs.env.data.name\x7d")])⟩]⟩
    [] rfl⟩

/-- C9: a composite expression with `n` sub-expressions reports `n` empty
strings (the `make([]string, n)` pre-allocation) followed by the extracted
roots as its dependencies; the empty string survives into the dependency
set of any resource one of whose property values contains a composite
expression; and — provided the reported vertex is not masked by some other
invalid dependency — `Graph` fails with a vertex-not-found error for the
empty-string vertex. -/
theorem claim_C9 (refNames : List String) (specs : List SpecResource)
    (rg : ResourceGroupM) (spec : SpecResource) (fields : List (String × Json))
    (k : String) (v : Json)
    (hpg : parseGroup refNames specs [] = .ok rg)
    (hspec : spec ∈ specs) (hprops : spec.properties = some (.obj fields))
    (hkv : (k, v) ∈ fields) (hc : HasComposite v)
    (hval : ∀ n' r', (n', r') ∈ rg → ∀ d ∈ r'.dependencies, d ≠ "" →
        (stringSet (graphVertexList (grDeps rg))).contains d = true) :
    (∀ (s : String) (subs : List String),
        Parse (.str s) = .ok (.composite s subs) →
        (Expression.Dependencies (.composite s subs)).take subs.length
          = List.replicate subs.length ""
        ∧ (Expression.Dependencies (.composite s subs)).drop subs.length
          = subs.flatMap exprDependencies)
    ∧ (∃ r, lookupA rg spec.name = some r ∧ "" ∈ r.dependencies)
    ∧ Graph rg = .error (.vertexNotFound "") := by
  have hpart1 : ∀ (s : String) (subs : List String),
      Parse (.str s) = .ok (.composite s subs) →
      (Expression.Dependencies (.composite s subs)).take subs.length
        = List.replicate subs.length ""
      ∧ (Expression.Dependencies (.composite s subs)).drop subs.length
        = subs.flatMap exprDependencies := by
    intro s subs _
    constructor
    · have h1 := List.take_left (List.replicate subs.length ("" : String))
        (subs.flatMap exprDependencies)
      rw [List.length_replicate] at h1
      exact h1
    · have h1 := List.drop_left (List.replicate subs.length ("" : String))
        (subs.flatMap exprDependencies)
      rw [List.length_replicate] at h1
      exact h1
  obtain ⟨rp, hrp, hlook⟩ :=
    parseGroup_creates refNames specs [] rg hpg spec hspec fields hprops
  have hmem0 : (spec.name,
      (⟨spec.name, spec.resourceRef, rp, rp.dependencies⟩ : GroupResource)) ∈ rg :=
    lookupA_mem rg spec.name _ hlook
  have hdep0 : "" ∈ rp.dependencies :=
    newResourceProperties_hasComposite fields rp k v hrp hkv hc
  obtain ⟨hn, hnd⟩ := parseGroup_nodup refNames specs [] rg hpg (by simp)
    (by intro p hp; simp at hp)
  obtain ⟨v0, hgraph, hcont0, n', r', hmem', hdep'⟩ :=
    Graph_error_of_bad_dep rg spec.name _ "" hn hnd hmem0 hdep0
      (fun m => Ne.symm (vertexName_ne_empty m))
  have hv0 : v0 = "" := by
    by_contra hne
    have hc' := hval n' r' hmem' v0 hdep' hne
    rw [hcont0] at hc'
    exact Bool.noConfusion hc'
  exact ⟨hpart1, ⟨_, hlook, hdep0⟩, hv0 ▸ hgraph⟩

theorem claim_C9_witness :
    (∀ (s : String) (subs : List String),
        Parse (.str s) = .ok (.composite s subs) →
        (Expression.Dependencies (.composite s subs)).take subs.length
          = List.replicate subs.length ""
        ∧ (Expression.Dependencies (.composite s subs)).drop subs.length
          = subs.flatMap exprDependencies)
    ∧ (∃ r, lookupA
        [("x", (⟨"x", "refx",
          ⟨[("greeting",
              .expr "greeting" (.composite "hello $\x7bsample\x7d" ["sample"]) [""])],
            [""]⟩, [""]⟩ : GroupResource))] "x" = some r ∧ "" ∈ r.dependencies)
    ∧ Graph [("x", ⟨"x", "refx",
        ⟨[("greeting",
            .expr "greeting" (.composite "hello $\x7bsample\x7d" ["sample"]) [""])],
          [""]⟩, [""]⟩)] = .error (.vertexNotFound "") := by
  exact claim_C9 ["refx"]
    [⟨"x", "refx", some (.obj [("greeting", .str "hello $\x7bsample\x7d")])⟩]
    [("x", ⟨"x", "refx",
        ⟨[("greeting",
            .expr "greeting" (.composite "hello $\x7bsample\x7d" ["sample"]) [""])],
          [""]⟩, [""]⟩)]
    ⟨"x", "refx", some (.obj [("greeting", .str "hello $\x7bsample\x7d")])⟩
    [("greeting", .str "hello $\x7bsample\x7d")]
    "greeting" (.str "hello $\x7bsample\x7d")
    rfl (List.mem_singleton.mpr rfl) rfl (List.mem_singleton.mpr rfl)
    (HasComposite.str "hello $\x7bsample\x7d" ["sample"] rfl)
    (by
      intro n' r' hm d hd hne
      simp only [List.mem_singleton, Prod.mk.injEq] at hm
      obtain ⟨_, hr'⟩ := hm
      subst hr'
      simp at hd
      exact absurd hd hne)

/-- C3 counterexample (refuting the lexicographic part).  On the group
`a` (depends on `resources.c`), `b`, `c` the sort outputs
`[resources.b, resources.c, resources.a]`: `resources.a` and `resources.b`
are incomparable (neither depends on the other) and `resources.a` is
lexicographically smaller, yet `resources.b` is emitted first —
incomparable vertices do not appear in lexicographic order: the FIFO queue
seeds with the sorted sources `[resources.b, resources.c]`, and
`resources.a`, freed only once `resources.c` is emitted, joins the
queue's tail after them. -/
theorem claim_C3_counterexample :
    graphOf [("a", ["resources.c"]), ("b", []), ("c", [])]
      = .ok ["resources.b", "resources.c", "resources.a"]
    ∧ strLt "resources.a" "resources.b" = true
    ∧ ¬ DependsOn [("a", ["resources.c"]), ("b", []), ("c", [])]
        "resources.a" "resources.b"
    ∧ ¬ DependsOn [("a", ["resources.c"]), ("b", []), ("c", [])]
        "resources.b" "resources.a" := by
  refine ⟨rfl, by decide, ?_, ?_⟩
  · intro h
    obtain ⟨z, hz⟩ := dependsOn_last_edge _ _ _ h
    rw [show graphEdgeList [("a", ["resources.c"]), ("b", []), ("c", [])]
        = [("resources.c", "resources.a")] from rfl] at hz
    have h2 := List.mem_singleton.mp hz
    have h3 : ("resources.b" : String) = "resources.a" := congrArg Prod.snd h2
    exact absurd h3 (by decide)
  · intro h
    obtain ⟨z, hz⟩ := dependsOn_first_edge _ _ _ h
    rw [show graphEdgeList [("a", ["resources.c"]), ("b", []), ("c", [])]
        = [("resources.c", "resources.a")] from rfl] at hz
    have h2 := List.mem_singleton.mp hz
    have h3 : ("resources.b" : String) = "resources.c" := congrArg Prod.fst h2
    exact absurd h3 (by decide)

/-- C3 (amended): for every group whose dependencies sort successfully, the
returned order is a permutation of the vertex list (one `resources.<name>`
vertex per resource), the source of every dependency edge precedes its
target in the order, and the output is identical for any reordering of the
input resources; the original claim's stronger requirement that
incomparable vertices appear in lexicographic vertex-name order is refuted
by the counterexample. -/
theorem claim_C3 (gr gr' : List (String × List String)) (order : List String)
    (hok : graphOf gr = .ok order) (hperm : List.Perm gr gr') :
    List.Perm order (graphVertexList gr)
    ∧ (∀ s t, (s, t) ∈ graphEdgeList gr →
        ∀ i, ∀ hi : i < order.length, order.get ⟨i, hi⟩ = t →
          ∃ j, ∃ hj : j < order.length, j < i ∧ order.get ⟨j, hj⟩ = s)
    ∧ graphOf gr' = .ok order := by
  obtain ⟨hn, hed, hfind, hkrun, hklen⟩ := graphOf_ok_inv gr order hok
  have hvn : (graphVertexList gr).Nodup := graphVertexList_nodup gr hn
  have hvnd : (stringSet (graphVertexList gr)).Nodup := nodup_stringSet _
  have hep : List.Perm (graphEdgeList gr) (graphEdgeList gr') :=
    perm_flatMap _ gr gr' hperm
  have hvs : stringSet (graphVertexList gr') = stringSet (graphVertexList gr) := by
    refine stringSet_eq_of_mem_iff _ _ ?_
    intro x
    show x ∈ gr'.map (fun p => vertexName p.1) ↔ x ∈ gr.map (fun p => vertexName p.1)
    exact (List.Perm.mem_iff (hperm.map (fun p => vertexName p.1))).symm
  refine ⟨?_, ?_, ?_⟩
  · have hq0nd : (([] : List String) ++ sortLt ((stringSet (graphVertexList gr)).filter
        (readyV (graphEdgeList gr) []))).Nodup := by
      simp only [List.nil_append]
      exact nodup_sortLt _ (hvnd.filter _)
    have hq0sub : ∀ w ∈ sortLt ((stringSet (graphVertexList gr)).filter
        (readyV (graphEdgeList gr) [])), w ∈ stringSet (graphVertexList gr) := by
      intro w hw
      exact List.mem_of_mem_filter ((mem_sortLt _ w).mp hw)
    obtain ⟨hond, homem⟩ := kahnAux_nodup_subset (stringSet (graphVertexList gr))
      (graphEdgeList gr) hvnd (stringSet (graphVertexList gr)).length
      (sortLt ((stringSet (graphVertexList gr)).filter (readyV (graphEdgeList gr) [])))
      [] hq0nd hq0sub
    have hond' : order.Nodup := by
      rw [← hkrun]
      exact hond
    have hosub : ∀ w ∈ order, w ∈ stringSet (graphVertexList gr) := by
      intro w hw
      rw [← hkrun] at hw
      rcases homem w hw with h | h
      · simp at h
      · exact h
    have hperm1 : List.Perm order (stringSet (graphVertexList gr)) :=
      (List.subperm_of_subset hond' hosub).perm_of_length_le (le_of_eq hklen.symm)
    refine hperm1.trans ?_
    refine (List.perm_ext_iff_of_nodup hvnd hvn).mpr ?_
    intro a
    exact mem_stringSet _ a
  · intro s t hst i hi hget
    have hready0 : ∀ w ∈ sortLt ((stringSet (graphVertexList gr)).filter
        (readyV (graphEdgeList gr) [])), readyV (graphEdgeList gr) [] w = true := by
      intro w hw
      exact List.of_mem_filter ((mem_sortLt _ w).mp hw)
    subst hkrun
    exact kahnAux_edge_before (stringSet (graphVertexList gr)) (graphEdgeList gr)
      (stringSet (graphVertexList gr)).length
      (sortLt ((stringSet (graphVertexList gr)).filter (readyV (graphEdgeList gr) [])))
      [] hready0 s t hst i hi hget (Nat.zero_le i)
  · have hn' : (gr'.map Prod.fst).Nodup := ((hperm.map Prod.fst).nodup_iff).mp hn
    have hed' : (graphEdgeList gr').Nodup := hep.nodup_iff.mp hed
    have hfind' : (graphEdgeList gr').find? (fun e =>
        !((stringSet (graphVertexList gr')).contains e.1 &&
          (stringSet (graphVertexList gr')).contains e.2)) = none := by
      rw [hvs]
      rw [List.find?_eq_none] at hfind ⊢
      intro e he
      exact hfind e (hep.mem_iff.mpr he)
    have hrun' : kahnRun (stringSet (graphVertexList gr')) (graphEdgeList gr')
        = order := by
      rw [hvs]
      rw [kahnRun_congr (stringSet (graphVertexList gr)) (graphEdgeList gr')
        (graphEdgeList gr) (fun e => hep.mem_iff.symm)]
      exact hkrun
    simp only [graphOf]
    rw [if_pos hn', if_pos hed']
    simp only [hfind']
    rw [hrun', hvs, hklen]
    rw [if_pos rfl]

theorem claim_C3_witness :
    List.Perm ["resources.b", "resources.c", "resources.a"]
      (graphVertexList [("a", ["resources.c"]), ("b", []), ("c", [])])
    ∧ (∀ s t, (s, t) ∈ graphEdgeList [("a", ["resources.c"]), ("b", []), ("c", [])] →
        ∀ i, ∀ hi : i < (["resources.b", "resources.c", "resources.a"]
            : List String).length,
          (["resources.b", "resources.c", "resources.a"]
            : List String).get ⟨i, hi⟩ = t →
          ∃ j, ∃ hj : j < (["resources.b", "resources.c", "resources.a"]
              : List String).length,
            j < i ∧ (["resources.b", "resources.c", "resources.a"]
              : List String).get ⟨j, hj⟩ = s)
    ∧ graphOf [("b", []), ("a", ["resources.c"]), ("c", [])]
      = .ok ["resources.b", "resources.c", "resources.a"] :=
  claim_C3 [("a", ["resources.c"]), ("b", []), ("c", [])]
    [("b", []), ("a", ["resources.c"]), ("c", [])]
    ["resources.b", "resources.c", "resources.a"]
    rfl (List.Perm.swap ("b", []) ("a", ["resources.c"]) [("c", [])])

/-- C5 counterexample (refuting completeness of the extraction).  The
expression `resources.a.x == resources.b.y` accesses the two roots
`resources.a` and `resources.b` — each is extracted when it is the leftmost
match — yet `Dependencies` returns only `resources.a`:
`FindStringSubmatch` yields just the first match of each regex.  A
`parameters.*` root yields nothing, as claimed. -/
theorem claim_C5_counterexample :
    exprDependencies "resources.a.x == resources.b.y" = ["resources.a"]
    ∧ "resources.b" ∉ exprDependencies "resources.a.x == resources.b.y"
    ∧ exprDependencies "resources.b.y" = ["resources.b"]
    ∧ exprDependencies "parameters.x.y" = [] :=
  ⟨rfl, by decide, rfl, rfl⟩

/-- C5 (amended): every dependency extracted from a scalar expression source
is a genuine root occurrence — `resources.` or `refs.` followed by a
nonempty name, occurring in the source followed by a dot — so `parameters`
and other roots never contribute; but at most one dependency of each kind
is produced (at most two in total, the leftmost match of each regex),
refuting the original claim's "one dependency for each root the expression
accesses". -/
theorem claim_C5 (source : String) (d : String)
    (hd : d ∈ exprDependencies source) :
    ((∃ run, d.data = resourcesRootPrefix ++ run ∧ run ≠ [])
      ∨ (∃ run, d.data = refsRootPrefix ++ run ∧ run ≠ []))
    ∧ List.IsInfix (d.data ++ [dotChar]) source.data
    ∧ (exprDependencies source).length ≤ 2 := by
  simp only [exprDependencies] at hd ⊢
  cases hres : findRoot resourcesRootPrefix source.data with
  | some g =>
    have hsound := findRoot_sound resourcesRootPrefix source.data g hres
    cases hrefs : findRoot refsRootPrefix source.data with
    | some g2 =>
      have hsound2 := findRoot_sound refsRootPrefix source.data g2 hrefs
      simp only [hres, hrefs] at hd ⊢
      rcases List.mem_cons.mp hd with hdg | hdg
      · subst hdg
        exact ⟨Or.inl hsound.1, hsound.2, by simp⟩
      · have hdg2 : d = String.mk g2 := by simpa using hdg
        subst hdg2
        exact ⟨Or.inr hsound2.1, hsound2.2, by simp⟩
    | none =>
      simp only [hres, hrefs] at hd ⊢
      have hdg : d = String.mk g := by simpa using hd
      subst hdg
      exact ⟨Or.inl hsound.1, hsound.2, by simp⟩
  | none =>
    cases hrefs : findRoot refsRootPrefix source.data with
    | some g2 =>
      have hsound2 := findRoot_sound refsRootPrefix source.data g2 hrefs
      simp only [hres, hrefs] at hd ⊢
      have hdg2 : d = String.mk g2 := by simpa using hd
      subst hdg2
      exact ⟨Or.inr hsound2.1, hsound2.2, by simp⟩
    | none =>
      simp only [hres, hrefs] at hd
      simp at hd

theorem claim_C5_witness :
    ((∃ run, ("resources.a" : String).data = resourcesRootPrefix ++ run ∧ run ≠ [])
      ∨ (∃ run, ("resources.a" : String).data = refsRootPrefix ++ run ∧ run ≠ []))
    ∧ List.IsInfix (("resources.a" : String).data ++ [dotChar])
        ("resources.a.x" : String).data
    ∧ (exprDependencies "resources.a.x").length ≤ 2 :=
  claim_C5 "resources.a.x" "resources.a" (by decide)

/-- C7: after a successful fan-out reconcile, the tracked deployments are
exactly one per placement in the union of the referenced `ResourceRef`s'
placements: the tracked names are `<group>.<placement>` for the
deduplicated placement union, pairwise distinct, their number equals the
placement count, and each placement's deployment exists in the store with
the matching `spec.placement` and the group's `spec.resources`. -/
theorem claim_C7 (g : GroupIn) (refStore : List (String × List String))
    (store st' : DStore) (know : List (String × String)) (phase : String)
    (h : bundleFanout g refStore store = some (st', know, phase)) :
    ∃ raw, collectPlacements refStore g.resources = some raw
      ∧ know.map Prod.fst = (stringSet raw).map (fun p => g.name ++ "." ++ p)
      ∧ know.length = (stringSet raw).length
      ∧ (know.map Prod.fst).Nodup
      ∧ ∀ p ∈ stringSet raw, ∃ dobj : DObj,
          lookupA st' (g.name ++ "." ++ p) = some dobj
          ∧ dobj.placement = p ∧ dobj.resourcesSpec = g.resources := by
  simp only [bundleFanout] at h
  cases hc : collectPlacements refStore g.resources with
  | none =>
    simp only [hc] at h
    exact Option.noConfusion h
  | some raw =>
    simp only [hc] at h
    injection h with h
    have h1 : (fanoutLoop g (stringSet raw) store []).1 = st' :=
      congrArg Prod.fst h
    have h2 : (fanoutLoop g (stringSet raw) store []).2 = know :=
      congrArg (fun t => t.2.1) h
    have hm : know.map Prod.fst = (stringSet raw).map (fun p => g.name ++ "." ++ p) := by
      rw [← h2]
      have := fanoutLoop_know g (stringSet raw) store []
      simpa using this
    refine ⟨raw, rfl, hm, ?_, ?_, ?_⟩
    · calc know.length = (know.map Prod.fst).length := (List.length_map _ _).symm
        _ = ((stringSet raw).map (fun p => g.name ++ "." ++ p)).length := by rw [hm]
        _ = (stringSet raw).length := List.length_map _ _
    · rw [hm]
      exact (nodup_stringSet raw).map
        (fun a b hEq => strAppend_cancel_left (g.name ++ ".") a b hEq)
    · intro p hp
      obtain ⟨dobj, hl, hpl, hrs⟩ :=
        fanoutLoop_creates g (stringSet raw) store [] (nodup_stringSet raw) p hp
      rw [h1] at hl
      exact ⟨dobj, hl, hpl, hrs⟩

theorem claim_C7_witness :
    ∃ raw, collectPlacements [("ref1", ["p1", "p2"])] [("r1", "ref1")] = some raw
      ∧ ([("grp.p1", "Running"), ("grp.p2", "Running")]
            : List (String × String)).map Prod.fst
          = (stringSet raw).map (fun p => "grp" ++ "." ++ p)
      ∧ ([("grp.p1", "Running"), ("grp.p2", "Running")]
            : List (String × String)).length = (stringSet raw).length
      ∧ (([("grp.p1", "Running"), ("grp.p2", "Running")]
            : List (String × String)).map Prod.fst).Nodup
      ∧ ∀ p ∈ stringSet raw, ∃ dobj : DObj,
          lookupA [("grp.p1", ⟨"p1", [("r1", "ref1")], ""⟩),
                   ("grp.p2", ⟨"p2", [("r1", "ref1")], ""⟩)] ("grp" ++ "." ++ p)
            = some dobj
          ∧ dobj.placement = p ∧ dobj.resourcesSpec = [("r1", "ref1")] :=
  claim_C7 ⟨"grp", [("r1", "ref1")]⟩ [("ref1", ["p1", "p2"])] []
    [("grp.p1", ⟨"p1", [("r1", "ref1")], ""⟩),
     ("grp.p2", ⟨"p2", [("r1", "ref1")], ""⟩)]
    [("grp.p1", "Running"), ("grp.p2", "Running")]
    ResourceGroupDeploymentInProgressPhase rfl

example : searchExpressions "hello" = [] := rfl
example : searchExpressions "$\x7bsample\x7d" = ["sample"] := rfl
example : searchExpressions "$\x7ba\x7d and $\x7bb.c\x7d" = ["a", "b.c"] := rfl
example : Parse (.str "$\x7bresources.a.id\x7d") = .ok (.single "resources.a.id") := rfl
example : Parse (.str "hi $\x7bx\x7d") = .ok (.composite "hi $\x7bx\x7d" ["x"]) := rfl
example : exprDependencies "resources.a.id" = ["resources.a"] := rfl
example : exprDependencies "refs.env.data.name" = ["refs.env"] := rfl
example : exprDependencies "resources.a.x == resources.b.y" = ["resources.a"] := rfl
example : exprDependencies "parameters.x" = [] := rfl

example : readProperty "n" (.str "$\x7bresources.a.id\x7d") =
    .ok (.expr "n" (.single "resources.a.id") ["resources.a"]) := rfl

example : newResourceProperties [("n", .str "$\x7bresources.a.id\x7d"), ("m", .str "hi $\x7bx\x7d")]
    = .ok ⟨[("n", .expr "n" (.single "resources.a.id") ["resources.a"]),
            ("m", .expr "m" (.composite "hi $\x7bx\x7d" ["x"]) [""])],
           ["", "resources.a"]⟩ := rfl

example : evalProperty (σ := Unit) (fun _ _ => .ok (.str "v")) ()
      (.arr "a" [.expr "a[0]" (.simple "x") [], .expr "a[1]" (.simple "y") []] [])
    = .ok (.arr [.null, .null, .str "x", .str "y"]) := rfl

end Klaudio
